import Mathlib

/-!
Verification development for the gobake code generator.

The program turns an input byte payload into a Go source fragment: a
declaration (const / var / func) whose value is a line-wrapped,
hex-escaped string literal, optionally gzip-compressed, together with
the import block the fragment needs.

Text is modelled as `List Char`; bytes as `Nat` (Go `byte` values are
0..255; the embedding is total).  Each definition below mirrors one
function of gobake.go; doc comments name the source function.
-/

/-- The constant `hextable` of `formatValue`. -/
def hextable : List Char := "0123456789abcdef".data

/-- Indexing into `hextable` (Go indexing; the argument is below 16 for
byte inputs, the default keeps the model total). -/
def hexc (n : Nat) : Char := hextable.getD n '0'

/-- One loop step of `formatValue`'s escape output:
`"\x" + hextable[b>>4] + hextable[b&0x0f]` for a byte `x` (for `x < 256`,
`x >>> 4 = x / 16` and `x &&& 0xf = x % 16`). -/
def escByte (x : Nat) : List Char := ['\\', 'x', hexc (x / 16), hexc (x % 16)]

/-- The escape text of a whole byte sequence. -/
def escBytes (b : List Nat) : List Char := b.flatMap escByte

/-- The inner indent loop of `formatValue`: `indent` tab characters
(a Go `for i := 0; i < indent; i++` loop runs `indent.toNat` times). -/
def tabs (indent : Int) : List Char := List.replicate indent.toNat '\t'

/-- The main loop of `formatValue` (`for i := 0; i < len(b); i++`),
processing the bytes still to be written; `i` is the loop counter, `len`
the total length `len(b)`, and `closer` the text written after the final
quote (`")"` when a type wraps the literal, nothing otherwise). -/
def fvLoop (wrap indent : Int) (closer : List Char) (len : Nat) : Nat → List Nat → List Char
  | _, [] => []
  | i, x :: rest =>
    (if (len : Int) > wrap ∧ 0 < wrap ∧ (i : Int) % wrap = 0 then tabs indent ++ ['"'] else [])
      ++ escByte x
      ++ (if i = len - 1 then '"' :: closer ++ ['\n']
          else if 0 < wrap ∧ (i : Int) % wrap = wrap - 1 then ['"', ' ', '+', '\n'] else [])
      ++ fvLoop wrap indent closer len (i + 1) rest

/-- The type normalization at the head of `formatValue`:
`if typ == "string" \x7b typ = "" \x7d`. -/
def typNorm (typ0 : List Char) : List Char :=
  if typ0 = ['s', 't', 'r', 'i', 'n', 'g'] then [] else typ0

/-- Function `formatValue(wrap, indent int, typ string, b []byte) string`
of gobake.go, translated clause by clause. -/
def formatValue (wrap indent : Int) (typ0 : List Char) (b : List Nat) : List Char :=
  if b = [] then
    if typNorm typ0 = [] then ['"', '"', '\n']
    else typNorm typ0 ++ ['(', '"', '"', ')', '\n']
  else
    (if typNorm typ0 = [] then [] else typNorm typ0 ++ ['(']) ++
      (if 0 < wrap ∧ (b.length : Int) > wrap then ['"', '"', ' ', '+', '\n'] else ['"']) ++
      fvLoop wrap indent (if typNorm typ0 = [] then [] else [')']) b.length 0 b

/-- Splitting a byte sequence into the groups the wrapped output quotes
separately: full groups of `w` bytes plus a final group of at most `w`. -/
def chunks (w : Nat) (b : List Nat) : List (List Nat) :=
  if w = 0 then [b]
  else if b.length ≤ w then [b]
  else b.take w :: chunks w (b.drop w)
termination_by b.length
decreasing_by simp only [List.length_drop]; omega

/-- The chunk lines of the wrapped output: each group is quoted on its
own line after `indent` tabs, lines joined by the concatenation mark
`" +` and a newline; the last line ends the literal and appends
`closer` before the final newline. -/
def wcCore (indent : Int) (closer : List Char) : List (List Nat) → List Char
  | [] => []
  | [c] => tabs indent ++ '"' :: escBytes c ++ '"' :: closer ++ ['\n']
  | c :: rest => tabs indent ++ '"' :: escBytes c ++ ['"', ' ', '+', '\n'] ++ wcCore indent closer rest

/-- Modelled from the spec: gzip framing, absent from src (Go's
`compress/gzip` package).  §4.2 describes Gzip as an in-memory
reversible byte transform paired with matching decode logic; the model
uses the gzip member header and DEFLATE stored blocks (type-00 blocks
of at most 65535 literal bytes, final-block flag on the last one). -/
def storedBlocks (b : List Nat) : List Nat :=
  if b.length ≤ 65535 then
    1 :: b.length % 256 :: b.length / 256 ::
      (65535 - b.length) % 256 :: (65535 - b.length) / 256 :: b
  else
    0 :: 255 :: 255 :: 0 :: 0 :: (b.take 65535 ++ storedBlocks (b.drop 65535))
termination_by b.length
decreasing_by simp only [List.length_drop]; omega

/-- Modelled from the spec: a 32-bit little-endian value, as in the gzip
member trailer. -/
def le32 (n : Nat) : List Nat := [n % 256, n / 256 % 256, n / 65536 % 256, n / 16777216 % 256]

/-- Modelled from the spec: the fixed 10-byte gzip member header. -/
def gzipHeader : List Nat := [31, 139, 8, 0, 0, 0, 0, 0, 0, 255]

/-- Modelled from the spec: `gzipCompressor.Encode` runs the payload
through the gzip codec in memory; header, stored blocks, then the
trailer (checksum word, kept zero in the model, and the payload length
modulo 2^32). -/
def gzipEncode (b : List Nat) : List Nat :=
  gzipHeader ++ storedBlocks b ++ le32 0 ++ le32 (b.length % 4294967296)

/-- Modelled from the spec: reading back a stored-block stream; returns
the decoded bytes and the remaining input. -/
def parseBlocks : List Nat → Option (List Nat × List Nat)
  | f :: l1 :: l2 :: n1 :: n2 :: rest =>
    if n1 + n2 * 256 = 65535 - (l1 + l2 * 256) ∧ l1 + l2 * 256 ≤ rest.length then
      if f = 1 then some (rest.take (l1 + l2 * 256), rest.drop (l1 + l2 * 256))
      else
        match parseBlocks (rest.drop (l1 + l2 * 256)) with
        | some (p, r) => some (rest.take (l1 + l2 * 256) ++ p, r)
        | none => none
    else none
  | _ => none
termination_by l => l.length
decreasing_by simp only [List.length_drop, List.length_cons]; omega

/-- Modelled from the spec: the decode semantics of the Gzip strategy's
decode expression `gzip.NewReader(strings.NewReader(v))` — check the
member header, inflate the stored blocks, check the trailer. -/
def gzipDecode (l : List Nat) : Option (List Nat) :=
  if l.take 10 = gzipHeader then
    match parseBlocks (l.drop 10) with
    | some (p, r) => if r = le32 0 ++ le32 (p.length % 4294967296) then some p else none
    | none => none
  else none

/-- Modelled from the spec: the decode semantics of the Identity
strategy's decode expression `ioutil.NopCloser(strings.NewReader(v))` —
reading the returned handle yields the bytes of `v` unchanged. -/
def noDecode (l : List Nat) : Option (List Nat) := some l

/-- The two `Compressor` implementations of gobake.go: `noCompressor`
and `gzipCompressor`. -/
inductive Strat
  | no
  | gzip
deriving DecidableEq

/-- Methods `noCompressor.Encode` (identity) and `gzipCompressor.Encode`. -/
def Strat.encode : Strat → List Nat → List Nat
  | .no, b => b
  | .gzip, b => gzipEncode b

/-- Methods `noCompressor.Imports` and `gzipCompressor.Imports`. -/
def Strat.imports : Strat → List String
  | .no => ["ioutil", "strings"]
  | .gzip => ["gzip", "strings"]

/-- Methods `noCompressor.FuncDecoder` and `gzipCompressor.FuncDecoder`:
the generated function body, given the literal's variable name. -/
def Strat.funcDecoder : Strat → List Char → List Char
  | .no, v => "return ioutil.NopCloser(strings.NewReader(".data ++ v ++ "))".data
  | .gzip, v => "gr, _ := gzip.NewReader(strings.NewReader(".data ++ v ++ "))\n\treturn gr".data

/-- The three `Declaration` implementations of gobake.go. -/
inductive Decl
  | constD
  | varD
  | funcD
deriving DecidableEq

/-- Methods `constDecl.Imports`, `varDecl.Imports` (nil) and `funcDecl.Imports`. -/
def Decl.imports : Decl → List String
  | .funcD => ["io"]
  | _ => []

/-- The three `FormatDeclare` methods of gobake.go. -/
def Decl.formatDeclare : Decl → List Nat → List Char → List Char → Strat → List Char
  | .constD, value, name, typ, comp =>
    "const ".data ++ name ++ " = ".data ++ formatValue 16 1 typ (comp.encode value)
  | .varD, value, name, typ, comp =>
    "var ".data ++ name ++ " = ".data ++ formatValue 16 1 typ (comp.encode value)
  | .funcD, value, name, typ, comp =>
    "func ".data ++ name ++ "() io.ReadCloser \x7b\n\tconst a = ".data
      ++ formatValue 16 2 typ (comp.encode value)
      ++ '\t' :: comp.funcDecoder ['a'] ++ "\n\x7d\n".data

/-- The `switch flags.Decl` of `main`: shape selection ("func" and any
unrecognized value select the function shape). -/
def selectDecl (declFlag : String) : Decl :=
  match declFlag with
  | "var" => .varD
  | "const" => .constD
  | _ => .funcD

/-- The `switch flags.Decl` of `main`, type side: `flags.Type` is forced
to the empty string for the const case and the func/default case, kept
for the var case. -/
def selectType (declFlag : String) (typFlag : String) : String :=
  match declFlag with
  | "var" => typFlag
  | "const" => ""
  | _ => ""

/-- The `switch flags.Compress` of `main`. -/
def selectStrat (compressFlag : String) : Strat :=
  match compressFlag with
  | "gzip" => .gzip
  | _ => .no

/-- Byte-lexicographic string comparison as `sort.Strings` uses (Go
compares strings bytewise; on the code points of the characters this is
the same order, since UTF-8 preserves code-point order). -/
def leGo : List Char → List Char → Bool
  | [], _ => true
  | _ :: _, [] => false
  | x :: xs, y :: ys =>
    if x.toNat < y.toNat then true
    else if y.toNat < x.toNat then false
    else leGo xs ys

/-- Relation `leGo` on strings, for sorting. -/
def strLeGo (a b : String) : Prop := leGo a.data b.data = true

instance : DecidableRel strLeGo := fun _ _ => inferInstanceAs (Decidable (_ = true))

/-- Totality of the sort relation, for the sortedness lemmas. -/
def leGo_total : ∀ a b : List Char, leGo a b = true ∨ leGo b a = true
  | [], _ => Or.inl rfl
  | _ :: _, [] => Or.inr rfl
  | x :: xs, y :: ys => by
    simp only [leGo]
    rcases Nat.lt_trichotomy x.toNat y.toNat with h | h | h
    · left
      rw [if_pos h]
    · rw [if_neg (by omega), if_neg (by omega), if_neg (by omega), if_neg (by omega)]
      exact leGo_total xs ys
    · right
      rw [if_pos h]

def leGo_trans : ∀ a b c : List Char,
    leGo a b = true → leGo b c = true → leGo a c = true
  | [], _, _, _, _ => rfl
  | x :: xs, [], _, h1, _ => by simp [leGo] at h1
  | _ :: _, _ :: _, [], _, h2 => by simp [leGo] at h2
  | x :: xs, y :: ys, z :: zs, h1, h2 => by
    simp only [leGo] at h1 h2 ⊢
    by_cases hxy : x.toNat < y.toNat
    · by_cases hyz : y.toNat < z.toNat
      · rw [if_pos (by omega)]
      · by_cases hzy : z.toNat < y.toNat
        · rw [if_neg hyz, if_pos hzy] at h2
          exact absurd h2 (by decide)
        · rw [if_pos (by omega)]
    · by_cases hyx : y.toNat < x.toNat
      · rw [if_neg hxy, if_pos hyx] at h1
        exact absurd h1 (by decide)
      · by_cases hyz : y.toNat < z.toNat
        · rw [if_pos (by omega)]
        · by_cases hzy : z.toNat < y.toNat
          · rw [if_neg hyz, if_pos hzy] at h2
            exact absurd h2 (by decide)
          · rw [if_neg (by omega), if_neg (by omega)]
            rw [if_neg hxy, if_neg hyx] at h1
            rw [if_neg hyz, if_neg hzy] at h2
            exact leGo_trans xs ys zs h1 h2

instance : IsTotal String strLeGo :=
  ⟨fun a b => leGo_total a.data b.data⟩

instance : IsTrans String strLeGo :=
  ⟨fun a b c => leGo_trans a.data b.data c.data⟩

/-- Characters that can occur in `formatValue` output aside from the
type name and its parentheses. -/
def fvCharSet : List Char := ['"', ' ', '+', '\n', '\t', '\\', 'x'] ++ hextable

/-- Narrow character set of the escape text. -/
def escCharSet : List Char := ['\\', 'x'] ++ hextable


/-- The import collection of `main`, lines 188–219: the declaration's
own imports, then — only for the function shape — the compressor's
imports, then the `-import` flag when non-empty, via `sort.Strings`. -/
def mainImports (d : Decl) (s : Strat) (extra : String) : List String :=
  List.insertionSort strLeGo
    (d.imports ++ (if d = Decl.funcD then s.imports else []) ++
      (if extra ≠ "" then [extra] else []))

/-- Go `unicode.IsLetter`, modelled on the ASCII range (the claims and
the spec's examples stay in ASCII). -/
def isLetterGo (c : Char) : Bool :=
  (65 ≤ c.toNat && c.toNat ≤ 90) || (97 ≤ c.toNat && c.toNat ≤ 122)

/-- Go `unicode.ToUpper`, modelled on the ASCII range. -/
def toUpperGo (c : Char) : Char :=
  if 97 ≤ c.toNat ∧ c.toNat ≤ 122 then Char.ofNat (c.toNat - 32) else c

/-- Go `unicode.ToLower`, modelled on the ASCII range. -/
def toLowerGo (c : Char) : Char :=
  if 65 ≤ c.toNat ∧ c.toNat ≤ 90 then Char.ofNat (c.toNat + 32) else c

/-- One iteration of `getDeclName`'s loop: letters are kept (the first
kept letter is case-forced by the export flag), any other character
appends one underscore when something has been kept already. -/
def declNameStep (exp : Bool) (s : List Char) (c : Char) : List Char :=
  if isLetterGo c then
    if s = [] then [if exp then toUpperGo c else toLowerGo c] else s ++ [c]
  else if s = [] then s else s ++ ['_']

/-- Function `getDeclName(name string, export bool) string` of gobake.go. -/
def getDeclName (name : List Char) (exp : Bool) : List Char :=
  name.foldl (declNameStep exp) []

/-- A Go identifier character: letter, digit or underscore (package
references in source text are an identifier directly followed by a
dot). -/
def isIdentChar (c : Char) : Bool := c.isAlpha || c.isDigit || c = '_'

/-- Scanner collecting the package qualifiers of a source fragment: the
maximal identifier runs that are directly followed by a dot.  The
accumulator holds the current identifier run, reversed. -/
def quals : List Char → List Char → List (List Char)
  | _, [] => []
  | acc, c :: rest =>
    if c = '.' then (if acc = [] then [] else [acc.reverse]) ++ quals [] rest
    else if isIdentChar c then quals (c :: acc) rest
    else quals [] rest

/-- The package names a source fragment references. -/
def qualifiers (s : List Char) : List (List Char) := quals [] s

/-- The accumulator of `quals` after scanning a dot-free segment. -/
def accAfter (acc : List Char) (s : List Char) : List Char :=
  s.foldl (fun a c => if isIdentChar c then c :: a else []) acc

/-- Scanner: every `+` in the list is directly preceded by the
character `sep`; `prev` is the character before the scanned text. -/
def plusPrevOk (sep prev : Char) : List Char → Bool
  | [] => true
  | x :: l => (!decide (x = '+') || decide (prev = sep)) && plusPrevOk sep x l

/-- Checks that every `+` character is directly preceded by a space (as
in the chunk junction `" +` then newline); a leading `+` fails. -/
def plusSP (l : List Char) : Bool := plusPrevOk ' ' '\n' l

/-- Checks that every `+` character is directly followed by a newline
(scanning the reverse); a trailing `+` fails. -/
def plusNL (l : List Char) : Bool := plusPrevOk '\n' 'x' l.reverse

/-! Character-level facts. -/

lemma char_eq_iff_toNat {c d : Char} : c = d ↔ c.toNat = d.toNat :=
  ⟨fun h => h ▸ rfl, fun h => Char.eq_of_val_eq (UInt32.ext h)⟩

lemma charOfNat_toNat {n : Nat} (h : n < 55296) : (Char.ofNat n).toNat = n := by
  rw [Char.ofNat, dif_pos (Or.inl h)]
  rfl

lemma isLetterGo_iff {c : Char} :
    isLetterGo c = true ↔ (65 ≤ c.toNat ∧ c.toNat ≤ 90) ∨ (97 ≤ c.toNat ∧ c.toNat ≤ 122) := by
  simp [isLetterGo, Bool.or_eq_true, Bool.and_eq_true, decide_eq_true_eq]

lemma isLetterGo_toUpperGo {c : Char} (h : isLetterGo c = true) :
    isLetterGo (toUpperGo c) = true := by
  rw [isLetterGo_iff] at h ⊢
  unfold toUpperGo
  split
  · rw [charOfNat_toNat (by omega)]
    omega
  · omega

lemma isLetterGo_toLowerGo {c : Char} (h : isLetterGo c = true) :
    isLetterGo (toLowerGo c) = true := by
  rw [isLetterGo_iff] at h ⊢
  unfold toLowerGo
  split
  · rw [charOfNat_toNat (by omega)]
    omega
  · omega

lemma isLetterGo_ne {c d : Char} (h : isLetterGo c = true) (hd : isLetterGo d = false) :
    c ≠ d := by
  intro he
  rw [he, hd] at h
  exact Bool.false_ne_true h

/-! Facts about `getDeclName`. -/

/-- Every character the sanitizer keeps is a letter or an underscore. -/
lemma foldl_declName_chars (e : Bool) :
    ∀ (s acc : List Char),
      (∀ c ∈ acc, isLetterGo c = true ∨ c = '_') →
      ∀ c ∈ s.foldl (declNameStep e) acc, isLetterGo c = true ∨ c = '_'
  | [], _, hacc => hacc
  | x :: s, acc, hacc => by
    simp only [List.foldl_cons]
    apply foldl_declName_chars e s
    intro c hc
    unfold declNameStep at hc
    split at hc
    · split at hc
      · simp only [List.mem_singleton] at hc
        subst hc
        split
        · exact Or.inl (isLetterGo_toUpperGo (by assumption))
        · exact Or.inl (isLetterGo_toLowerGo (by assumption))
      · rcases List.mem_append.1 hc with h | h
        · exact hacc c h
        · simp only [List.mem_singleton] at h
          subst h
          exact Or.inl (by assumption)
    · split at hc
      · exact hacc c hc
      · rcases List.mem_append.1 hc with h | h
        · exact hacc c h
        · simp only [List.mem_singleton] at h
          exact Or.inr h

lemma getDeclName_chars (s : List Char) (e : Bool) :
    ∀ c ∈ getDeclName s e, isLetterGo c = true ∨ c = '_' :=
  foldl_declName_chars e s [] (by intro c hc; cases hc)

/-- The sanitizer's output never starts with an underscore. -/
lemma foldl_declName_head (e : Bool) :
    ∀ (s acc : List Char), acc.head? ≠ some '_' →
      (s.foldl (declNameStep e) acc).head? ≠ some '_'
  | [], _, hacc => hacc
  | x :: s, acc, hacc => by
    simp only [List.foldl_cons]
    apply foldl_declName_head e s
    unfold declNameStep
    split
    · split
      · rename_i hlet hnil
        simp only [List.head?_cons, ne_eq, Option.some.injEq]
        intro hu
        have hl : isLetterGo (if e then toUpperGo x else toLowerGo x) = true := by
          split
          · exact isLetterGo_toUpperGo hlet
          · exact isLetterGo_toLowerGo hlet
        exact isLetterGo_ne hl (by decide) hu
      · rename_i hnil
        cases acc with
        | nil => exact absurd rfl hnil
        | cons a as => simpa using hacc
    · split
      · exact hacc
      · rename_i hnil
        cases acc with
        | nil => exact absurd rfl hnil
        | cons a as => simpa using hacc

lemma getDeclName_head (s : List Char) (e : Bool) :
    (getDeclName s e).head? ≠ some '_' :=
  foldl_declName_head e s [] (by simp)

/-- Once a letter has been kept, each later character maps to itself
(letters) or to one underscore (everything else). -/
lemma foldl_declName_append (e : Bool) :
    ∀ (t acc : List Char), acc ≠ [] →
      t.foldl (declNameStep e) acc
        = acc ++ t.map (fun c => if isLetterGo c then c else '_')
  | [], acc, _ => by simp
  | x :: t, acc, h => by
    simp only [List.foldl_cons, List.map_cons]
    have hstep : declNameStep e acc x = acc ++ [if isLetterGo x then x else '_'] := by
      unfold declNameStep
      by_cases hl : isLetterGo x = true <;> simp [hl, h]
    rw [hstep, foldl_declName_append e t _ (by simp), List.append_assoc]
    simp

lemma getDeclName_append (s t : List Char) (e : Bool) (h : getDeclName s e ≠ []) :
    getDeclName (s ++ t) e
      = getDeclName s e ++ t.map (fun c => if isLetterGo c then c else '_') := by
  unfold getDeclName
  rw [List.foldl_append]
  exact foldl_declName_append e t _ h

lemma getDeclName_no_letter (s : List Char) (e : Bool)
    (h : ∀ c ∈ s, isLetterGo c = false) : getDeclName s e = [] := by
  induction s with
  | nil => rfl
  | cons x s ih =>
    unfold getDeclName at ih ⊢
    simp only [List.foldl_cons]
    have hx : declNameStep e [] x = [] := by
      unfold declNameStep
      rw [if_neg, if_pos rfl]
      simp [h x (by simp)]
    rw [hx]
    exact ih (fun c hc => h c (List.mem_cons_of_mem _ hc))


/-! Modular-arithmetic helpers for the loop-position analysis. -/

lemma natCast_mod_int (i w : Nat) : ((i % w : Nat) : Int) = (i : Int) % (w : Int) := rfl

lemma int_mod_zero_iff {wrap : Int} (hw : 0 < wrap) (i : Nat) :
    ((i : Int) % wrap = 0) ↔ i % wrap.toNat = 0 := by
  obtain ⟨w, rfl⟩ : ∃ w : Nat, wrap = (w : Int) := ⟨wrap.toNat, (Int.toNat_of_nonneg hw.le).symm⟩
  rw [Int.toNat_natCast, ← natCast_mod_int]
  exact Int.natCast_eq_zero

lemma int_mod_pred_iff {wrap : Int} (hw : 0 < wrap) (i : Nat) :
    ((i : Int) % wrap = wrap - 1) ↔ i % wrap.toNat = wrap.toNat - 1 := by
  obtain ⟨w, rfl⟩ : ∃ w : Nat, wrap = (w : Int) := ⟨wrap.toNat, (Int.toNat_of_nonneg hw.le).symm⟩
  have hw' : 1 ≤ w := by exact_mod_cast hw
  rw [Int.toNat_natCast, ← natCast_mod_int]
  constructor
  · intro h
    have h2 : ((i % w : Nat) : Int) = ((w - 1 : Nat) : Int) := by
      rw [h]; push_cast [hw']; ring
    exact_mod_cast h2
  · intro h
    rw [h]; push_cast [hw']; ring

lemma add_mod_of_mod_zero {i j w : Nat} (h : i % w = 0) (hj : j < w) : (i + j) % w = j := by
  obtain ⟨k, rfl⟩ := Nat.dvd_of_mod_eq_zero h
  rw [Nat.mul_add_mod, Nat.mod_eq_of_lt hj]

/-! Structure of the `formatValue` loop output. -/

lemma escBytes_nil : escBytes [] = [] := rfl

lemma escBytes_cons (x : Nat) (b : List Nat) :
    escBytes (x :: b) = escByte x ++ escBytes b := by
  simp [escBytes]

lemma escBytes_append (a b : List Nat) :
    escBytes (a ++ b) = escBytes a ++ escBytes b := by
  simp [escBytes]

lemma fvLoop_cons (wrap indent : Int) (closer : List Char) (len i : Nat)
    (x : Nat) (rest : List Nat) :
    fvLoop wrap indent closer len i (x :: rest)
      = (if (len : Int) > wrap ∧ 0 < wrap ∧ ((i : Nat) : Int) % wrap = 0
          then tabs indent ++ ['"'] else [])
        ++ escByte x
        ++ (if i = len - 1 then '"' :: closer ++ ['\n']
            else if 0 < wrap ∧ ((i : Nat) : Int) % wrap = wrap - 1
              then ['"', ' ', '+', '\n'] else [])
        ++ fvLoop wrap indent closer len (i + 1) rest := rfl

/-- Loop positions that start no chunk, end no chunk and are not the
last byte emit just their escapes. -/
lemma fvLoop_plain (wrap indent : Int) (closer : List Char) (len : Nat) :
    ∀ (c : List Nat) (i : Nat) (rest : List Nat),
      (∀ j, j < c.length → ¬ (((i + j : Nat) : Int) % wrap = 0)) →
      (∀ j, j < c.length → i + j ≠ len - 1) →
      (∀ j, j < c.length → ¬ (0 < wrap ∧ ((i + j : Nat) : Int) % wrap = wrap - 1)) →
      fvLoop wrap indent closer len i (c ++ rest)
        = escBytes c ++ fvLoop wrap indent closer len (i + c.length) rest
  | [], i, rest, _, _, _ => by simp [escBytes]
  | x :: c, i, rest, h0, h1, h2 => by
    have e0 : ¬ ((len : Int) > wrap ∧ 0 < wrap ∧ ((i : Nat) : Int) % wrap = 0) := by
      rintro ⟨-, -, hm⟩
      exact h0 0 (by simp) (by simpa using hm)
    have e1 : i ≠ len - 1 := by simpa using h1 0 (by simp)
    have e2 : ¬ (0 < wrap ∧ ((i : Nat) : Int) % wrap = wrap - 1) := by
      simpa using h2 0 (by simp)
    rw [List.cons_append, fvLoop_cons, if_neg e0, if_neg e1, if_neg e2,
      fvLoop_plain wrap indent closer len c (i + 1) rest
        (fun j hj => by
          have h := h0 (j + 1) (by simp; omega)
          have he : i + (j + 1) = i + 1 + j := by omega
          rwa [he] at h)
        (fun j hj => by
          have h := h1 (j + 1) (by simp; omega)
          have he : i + (j + 1) = i + 1 + j := by omega
          rwa [he] at h)
        (fun j hj => by
          have h := h2 (j + 1) (by simp; omega)
          have he : i + (j + 1) = i + 1 + j := by omega
          rwa [he] at h)]
    have hidx : i + 1 + c.length = i + (x :: c).length := by simp; omega
    rw [hidx, escBytes_cons]
    simp [List.append_assoc]

/-- A full chunk of `wrap` bytes that is not the last chunk: one line
with tabs, an opening quote, the escapes and the concatenation mark. -/
lemma fvLoop_chunk (wrap indent : Int) (closer : List Char) (len : Nat)
    (hw : 0 < wrap) (hlen : (len : Int) > wrap)
    (c rest : List Nat) (i : Nat)
    (hc : c.length = wrap.toNat)
    (hi : i % wrap.toNat = 0)
    (htot : i + c.length + rest.length = len)
    (hrest : rest ≠ []) :
    fvLoop wrap indent closer len i (c ++ rest)
      = tabs indent ++ '"' :: escBytes c ++ ['"', ' ', '+', '\n']
          ++ fvLoop wrap indent closer len (i + c.length) rest := by
  have hw1 : 1 ≤ wrap.toNat := by omega
  obtain ⟨x, c', rfl⟩ : ∃ x c', c = x :: c' := by
    cases c with
    | nil => simp at hc; omega
    | cons a b => exact ⟨a, b, rfl⟩
  have hrl : 1 ≤ rest.length := by
    cases rest with
    | nil => exact absurd rfl hrest
    | cons a b => simp
  have s0 : ((i : Nat) : Int) % wrap = 0 := (int_mod_zero_iff hw i).2 hi
  have e1 : i ≠ len - 1 := by
    have h2 := htot
    simp at h2
    omega
  by_cases hw2 : wrap.toNat = 1
  · have hcnil : c' = [] := by simp at hc; exact List.eq_nil_of_length_eq_zero (by omega)
    subst hcnil
    have m0 : ((i : Nat) : Int) % wrap = wrap - 1 := by
      rw [int_mod_pred_iff hw]; omega
    rw [List.cons_append, List.nil_append, fvLoop_cons,
      if_pos ⟨hlen, hw, s0⟩, if_neg e1, if_pos ⟨hw, m0⟩]
    simp [escBytes_cons, escBytes_nil, List.append_assoc]
  · have hc' : c'.length = wrap.toNat - 1 := by simp at hc; omega
    obtain ⟨mid, lastb, rfl⟩ : ∃ mid lastb, c' = mid ++ [lastb] := by
      have hne : c' ≠ [] := by
        intro h
        rw [h] at hc'
        simp at hc'
        omega
      exact ⟨c'.dropLast, c'.getLast hne, (List.dropLast_append_getLast hne).symm⟩
    have hmid : mid.length = wrap.toNat - 2 := by simp at hc'; omega
    have m1 : ¬ (0 < wrap ∧ ((i : Nat) : Int) % wrap = wrap - 1) := by
      rintro ⟨-, hm⟩
      rw [int_mod_pred_iff hw] at hm
      omega
    rw [List.cons_append, fvLoop_cons, if_pos ⟨hlen, hw, s0⟩, if_neg e1, if_neg m1]
    rw [List.append_assoc mid, List.singleton_append]
    rw [fvLoop_plain wrap indent closer len mid (i + 1) (lastb :: rest)
      (fun j hj => by
        rw [int_mod_zero_iff hw]
        have : i + 1 + j = i + (1 + j) := by omega
        rw [this, add_mod_of_mod_zero hi (by omega)]
        omega)
      (fun j hj => by omega)
      (fun j hj => by
        rintro ⟨-, hm⟩
        rw [int_mod_pred_iff hw] at hm
        have : i + 1 + j = i + (1 + j) := by omega
        rw [this, add_mod_of_mod_zero hi (by omega)] at hm
        omega)]
    have eL0 : ¬ ((len : Int) > wrap ∧ 0 < wrap ∧
        ((i + 1 + mid.length : Nat) : Int) % wrap = 0) := by
      rintro ⟨-, -, hm⟩
      rw [int_mod_zero_iff hw] at hm
      have : i + 1 + mid.length = i + (1 + mid.length) := by omega
      rw [this, add_mod_of_mod_zero hi (by omega)] at hm
      omega
    have eL1 : i + 1 + mid.length ≠ len - 1 := by omega
    have eL2 : 0 < wrap ∧ ((i + 1 + mid.length : Nat) : Int) % wrap = wrap - 1 := by
      refine ⟨hw, ?_⟩
      rw [int_mod_pred_iff hw]
      have : i + 1 + mid.length = i + (1 + mid.length) := by omega
      rw [this, add_mod_of_mod_zero hi (by omega)]
      omega
    rw [fvLoop_cons, if_neg eL0, if_neg eL1, if_pos eL2]
    have hidx : i + 1 + mid.length + 1 = i + (x :: (mid ++ [lastb])).length := by
      simp
      omega
    rw [hidx, escBytes_cons, escBytes_append]
    simp [escBytes, escByte, List.append_assoc]

/-- The last byte list entry produces nothing more. -/
lemma fvLoop_nil (wrap indent : Int) (closer : List Char) (len i : Nat) :
    fvLoop wrap indent closer len i [] = [] := rfl

/-- The last chunk in wrapped mode: an indented quoted line closed by
the final quote, the closer and the newline. -/
lemma fvLoop_final (wrap indent : Int) (closer : List Char) (len : Nat)
    (hw : 0 < wrap) (hlen : (len : Int) > wrap)
    (c : List Nat) (i : Nat)
    (hc1 : 1 ≤ c.length) (hc2 : c.length ≤ wrap.toNat)
    (hi : i % wrap.toNat = 0)
    (htot : i + c.length = len) :
    fvLoop wrap indent closer len i c
      = tabs indent ++ '"' :: escBytes c ++ '"' :: closer ++ ['\n'] := by
  have hw1 : 1 ≤ wrap.toNat := by omega
  obtain ⟨x, c', rfl⟩ : ∃ x c', c = x :: c' := by
    cases c with
    | nil => simp at hc1
    | cons a b => exact ⟨a, b, rfl⟩
  have s0 : ((i : Nat) : Int) % wrap = 0 := (int_mod_zero_iff hw i).2 hi
  by_cases hone : c' = []
  · subst hone
    have e1 : i = len - 1 := by simp at htot; omega
    rw [fvLoop_cons, if_pos ⟨hlen, hw, s0⟩, if_pos e1]
    simp [fvLoop_nil, escBytes_cons, escBytes_nil, List.append_assoc]
  · obtain ⟨mid, lastb, rfl⟩ : ∃ mid lastb, c' = mid ++ [lastb] :=
      ⟨c'.dropLast, c'.getLast hone, (List.dropLast_append_getLast hone).symm⟩
    have hcl : mid.length + 2 = (x :: (mid ++ [lastb])).length := by simp
    have hw2 : 2 ≤ wrap.toNat := by omega
    have e1 : i ≠ len - 1 := by omega
    have m1 : ¬ (0 < wrap ∧ ((i : Nat) : Int) % wrap = wrap - 1) := by
      rintro ⟨-, hm⟩
      rw [int_mod_pred_iff hw] at hm
      omega
    rw [fvLoop_cons, if_pos ⟨hlen, hw, s0⟩, if_neg e1, if_neg m1]
    rw [fvLoop_plain wrap indent closer len mid (i + 1) [lastb]
      (fun j hj => by
        rw [int_mod_zero_iff hw]
        have he : i + 1 + j = i + (1 + j) := by omega
        rw [he, add_mod_of_mod_zero hi (by omega)]
        omega)
      (fun j hj => by omega)
      (fun j hj => by
        rintro ⟨-, hm⟩
        rw [int_mod_pred_iff hw] at hm
        have he : i + 1 + j = i + (1 + j) := by omega
        rw [he, add_mod_of_mod_zero hi (by omega)] at hm
        omega)]
    have eL0 : ¬ ((len : Int) > wrap ∧ 0 < wrap ∧
        ((i + 1 + mid.length : Nat) : Int) % wrap = 0) := by
      rintro ⟨-, -, hm⟩
      rw [int_mod_zero_iff hw] at hm
      have he : i + 1 + mid.length = i + (1 + mid.length) := by omega
      rw [he, add_mod_of_mod_zero hi (by omega)] at hm
      omega
    have eL1 : i + 1 + mid.length = len - 1 := by omega
    rw [fvLoop_cons, if_neg eL0, if_pos eL1, fvLoop_nil]
    rw [escBytes_cons, escBytes_append]
    simp [escBytes, escByte, List.append_assoc]

/-- Unwrapped mode (`wrap <= 0` or the payload not longer than `wrap`):
the loop emits just the escapes and the closing of the literal. -/
lemma fvLoop_single (wrap indent : Int) (closer : List Char) (len : Nat)
    (hnw : ¬ (0 < wrap ∧ (len : Int) > wrap)) :
    ∀ (b : List Nat) (i : Nat), b ≠ [] → i + b.length = len →
      fvLoop wrap indent closer len i b
        = escBytes b ++ '"' :: closer ++ ['\n']
  | [], _, hb, _ => absurd rfl hb
  | x :: b, i, _, htot => by
    have e0 : ¬ ((len : Int) > wrap ∧ 0 < wrap ∧ ((i : Nat) : Int) % wrap = 0) := by
      rintro ⟨h1, h2, -⟩
      exact hnw ⟨h2, h1⟩
    by_cases hone : b = []
    · subst hone
      have e1 : i = len - 1 := by simp at htot; omega
      rw [fvLoop_cons, if_neg e0, if_pos e1, fvLoop_nil]
      simp [escBytes_cons, escBytes_nil, List.append_assoc]
    · have hbl : 1 ≤ b.length := by
        cases b with
        | nil => exact absurd rfl hone
        | cons u v => simp
      have e1 : i ≠ len - 1 := by simp at htot; omega
      have m1 : ¬ (0 < wrap ∧ ((i : Nat) : Int) % wrap = wrap - 1) := by
        rintro ⟨hwp, hm⟩
        rw [int_mod_pred_iff hwp] at hm
        have hlen : (len : Int) ≤ wrap := by
          by_contra hcon
          exact hnw ⟨hwp, by omega⟩
        have hlen' : len ≤ wrap.toNat := by omega
        have hiw : i < wrap.toNat := by simp at htot; omega
        rw [Nat.mod_eq_of_lt hiw] at hm
        simp at htot
        omega
      rw [fvLoop_cons, if_neg e0, if_neg e1, if_neg m1,
        fvLoop_single wrap indent closer len hnw b (i + 1) hone (by simp at htot ⊢; omega)]
      rw [escBytes_cons]
      simp [List.append_assoc]

/-! Chunk list facts and the full decomposition of `formatValue`. -/

lemma chunks_small {w : Nat} (b : List Nat) (h : b.length ≤ w ∨ w = 0) :
    chunks w b = [b] := by
  unfold chunks
  split
  · rfl
  · split
    · rfl
    · omega

lemma chunks_big {w : Nat} (b : List Nat) (hw : w ≠ 0) (h : w < b.length) :
    chunks w b = b.take w :: chunks w (b.drop w) := by
  conv_lhs => unfold chunks
  rw [if_neg hw, if_neg (by omega)]

lemma chunks_ne_nil (w : Nat) (b : List Nat) : chunks w b ≠ [] := by
  unfold chunks
  split
  · simp
  · split <;> simp

lemma wcCore_cons (indent : Int) (closer : List Char) (c : List Nat)
    (cs : List (List Nat)) (h : cs ≠ []) :
    wcCore indent closer (c :: cs)
      = tabs indent ++ '"' :: escBytes c ++ ['"', ' ', '+', '\n']
          ++ wcCore indent closer cs := by
  cases cs with
  | nil => exact absurd rfl h
  | cons d ds => rfl

/-- In wrapped mode the loop renders exactly the chunk lines. -/
lemma fvLoop_chunks (wrap indent : Int) (closer : List Char) (len : Nat)
    (hw : 0 < wrap) (hlen : (len : Int) > wrap) :
    ∀ (n : Nat) (b : List Nat) (i : Nat), b.length ≤ n → b ≠ [] →
      i % wrap.toNat = 0 → i + b.length = len →
      fvLoop wrap indent closer len i b
        = wcCore indent closer (chunks wrap.toNat b) := by
  intro n
  induction n with
  | zero =>
    intro b i hb hne _ _
    cases b with
    | nil => exact absurd rfl hne
    | cons x r => simp at hb
  | succ n ih =>
    intro b i hb hne hi htot
    by_cases hsmall : b.length ≤ wrap.toNat
    · rw [chunks_small b (Or.inl hsmall)]
      have hb1 : 1 ≤ b.length := by
        cases b with
        | nil => exact absurd rfl hne
        | cons x r => simp
      rw [fvLoop_final wrap indent closer len hw hlen b i hb1 hsmall hi htot]
      rfl
    · have hw0 : wrap.toNat ≠ 0 := by omega
      rw [chunks_big b hw0 (by omega)]
      have htk : (b.take wrap.toNat).length = wrap.toNat := by
        rw [List.length_take]
        omega
      have hdr : (b.drop wrap.toNat).length = b.length - wrap.toNat := by
        rw [List.length_drop]
      have hdrne : b.drop wrap.toNat ≠ [] := by
        intro hcon
        have := congrArg List.length hcon
        rw [hdr] at this
        simp at this
        omega
      have hsplit : b.take wrap.toNat ++ b.drop wrap.toNat = b := List.take_append_drop _ b
      have hstep := fvLoop_chunk wrap indent closer len hw hlen (b.take wrap.toNat)
        (b.drop wrap.toNat) i htk hi (by rw [htk, hdr]; omega) hdrne
      rw [hsplit] at hstep
      rw [hstep, htk]
      rw [ih (b.drop wrap.toNat) (i + wrap.toNat) (by omega) hdrne
        (by rw [Nat.add_mod_right]; exact hi) (by omega)]
      rw [wcCore_cons indent closer _ _ (chunks_ne_nil _ _)]

/-- Empty-payload output of `formatValue`. -/
lemma formatValue_nil (wrap indent : Int) (typ0 : List Char) :
    formatValue wrap indent typ0 []
      = if typNorm typ0 = [] then ['"', '"', '\n']
        else typNorm typ0 ++ ['(', '"', '"', ')', '\n'] := by
  simp [formatValue]

/-- Unwrapped output of `formatValue` on a non-empty payload: one quoted
literal, possibly inside a type conversion. -/
lemma formatValue_single (wrap indent : Int) (typ0 : List Char) (b : List Nat)
    (hb : b ≠ []) (hnw : ¬ (0 < wrap ∧ (b.length : Int) > wrap)) :
    formatValue wrap indent typ0 b
      = (if typNorm typ0 = [] then [] else typNorm typ0 ++ ['('])
        ++ '"' :: escBytes b
        ++ '"' :: (if typNorm typ0 = [] then [] else [')']) ++ ['\n'] := by
  unfold formatValue
  rw [if_neg hb, if_neg hnw,
    fvLoop_single wrap indent _ b.length hnw b 0 hb (by omega)]
  simp [List.append_assoc]

/-- Wrapped output of `formatValue` on a payload longer than `wrap`:
an empty opening literal and then one indented line per chunk. -/
lemma formatValue_wrapped (wrap indent : Int) (typ0 : List Char) (b : List Nat)
    (hw : 0 < wrap) (hlen : (b.length : Int) > wrap) :
    formatValue wrap indent typ0 b
      = (if typNorm typ0 = [] then [] else typNorm typ0 ++ ['('])
        ++ ['"', '"', ' ', '+', '\n']
        ++ wcCore indent (if typNorm typ0 = [] then [] else [')'])
            (chunks wrap.toNat b) := by
  have hb : b ≠ [] := by
    intro hcon
    rw [hcon] at hlen
    simp at hlen
    omega
  unfold formatValue
  rw [if_neg hb,
    fvLoop_chunks wrap indent _ b.length hw hlen b.length b 0 le_rfl hb
      (Nat.zero_mod _) (by omega)]
  rw [if_pos (show 0 < wrap ∧ (b.length : Int) > wrap from ⟨hw, hlen⟩)]

/-! Character sets of the formatter output. -/

lemma hexc_mem (n : Nat) : hexc n ∈ hextable := by
  unfold hexc
  by_cases h : n < hextable.length
  · rw [List.getD_eq_getElem?_getD, List.getElem?_eq_getElem h]
    exact List.getElem_mem h
  · rw [List.getD_eq_getElem?_getD, List.getElem?_eq_none (by omega)]
    decide

lemma escByte_chars {c : Char} {x : Nat} (h : c ∈ escByte x) : c ∈ fvCharSet := by
  unfold escByte at h
  simp only [List.mem_cons] at h
  rcases h with rfl | rfl | rfl | h
  · decide
  · decide
  · exact List.mem_append_right _ (hexc_mem _)
  · simp only [List.mem_singleton, List.not_mem_nil] at h
    rcases h with rfl | h
    · exact List.mem_append_right _ (hexc_mem _)
    · cases h

lemma escBytes_chars {c : Char} {b : List Nat} (h : c ∈ escBytes b) : c ∈ fvCharSet := by
  unfold escBytes at h
  rw [List.mem_flatMap] at h
  obtain ⟨x, -, hx⟩ := h
  exact escByte_chars hx

lemma escBytes_count_zero {c : Char} (b : List Nat) (h : c ∉ fvCharSet) :
    (escBytes b).count c = 0 :=
  List.count_eq_zero.2 (fun hc => h (escBytes_chars hc))

lemma tabs_chars {c : Char} {indent : Int} (h : c ∈ tabs indent) : c = '\t' :=
  List.eq_of_mem_replicate h

lemma tabs_count_zero {c : Char} (indent : Int) (h : c ≠ '\t') :
    (tabs indent).count c = 0 :=
  List.count_eq_zero.2 (fun hc => h (tabs_chars hc))

lemma fvLoop_chars (wrap indent : Int) (closer : List Char) (len : Nat) :
    ∀ (b : List Nat) (i : Nat) (c : Char), c ∈ fvLoop wrap indent closer len i b →
      c ∈ fvCharSet ∨ c ∈ closer
  | [], _, c, h => by cases h
  | x :: b, i, c, h => by
    rw [fvLoop_cons] at h
    rcases List.mem_append.1 h with h | h
    · rcases List.mem_append.1 h with h | h
      · rcases List.mem_append.1 h with h | h
        · split at h
          · rcases List.mem_append.1 h with h | h
            · left; rw [tabs_chars h]; decide
            · simp only [List.mem_singleton] at h; left; rw [h]; decide
          · cases h
        · exact Or.inl (escByte_chars h)
      · split at h
        · rcases List.mem_cons.1 h with rfl | h
          · left; decide
          · rcases List.mem_append.1 h with h | h
            · exact Or.inr h
            · simp only [List.mem_singleton] at h; left; rw [h]; decide
        · split at h
          · left
            simp only [List.mem_cons, List.not_mem_nil] at h
            rcases h with rfl | rfl | rfl | rfl | h
            · decide
            · decide
            · decide
            · decide
            · cases h
          · cases h
    · exact fvLoop_chars wrap indent closer len b (i + 1) c h

lemma formatValue_chars (wrap indent : Int) (b : List Nat) {c : Char}
    (h : c ∈ formatValue wrap indent [] b) : c ∈ fvCharSet := by
  unfold formatValue at h
  have ht : typNorm [] = [] := by decide
  simp only [ht, ite_true, eq_self_iff_true] at h
  split at h
  · simp only [List.mem_cons, List.not_mem_nil] at h
    rcases h with rfl | rfl | rfl | h
    · decide
    · decide
    · decide
    · cases h
  · rcases List.mem_append.1 h with h | h
    · rcases List.mem_append.1 h with h | h
      · cases h
      · split at h
        · simp only [List.mem_cons, List.not_mem_nil] at h
          rcases h with rfl | rfl | rfl | rfl | rfl | h
          · decide
          · decide
          · decide
          · decide
          · decide
          · cases h
        · simp only [List.mem_singleton] at h; rw [h]; decide
    · rcases fvLoop_chars wrap indent _ b.length b 0 c h with h | h
      · exact h
      · cases h

/-! Scanner and counting lemmas. -/

lemma plusPrevOk_append (sep : Char) :
    ∀ (a : List Char) (prev : Char) (b : List Char),
      plusPrevOk sep prev (a ++ b)
        = (plusPrevOk sep prev a && plusPrevOk sep (a.getLastD prev) b)
  | [], prev, b => by simp [plusPrevOk]
  | x :: a, prev, b => by
    simp only [List.cons_append, plusPrevOk, List.append_eq]
    rw [plusPrevOk_append sep a x b, List.getLastD_cons, Bool.and_assoc]

lemma plusPrevOk_no_plus (sep : Char) :
    ∀ (l : List Char) (prev : Char), '+' ∉ l → plusPrevOk sep prev l = true
  | [], _, _ => rfl
  | x :: l, prev, h => by
    simp only [plusPrevOk, Bool.and_eq_true]
    refine ⟨?_, plusPrevOk_no_plus sep l x (fun hc => h (List.mem_cons_of_mem _ hc))⟩
    have hx : x ≠ '+' := fun hc => h (hc ▸ List.mem_cons_self _ _)
    simp [hx]

lemma escByte_chars2 {c : Char} {x : Nat} (h : c ∈ escByte x) : c ∈ escCharSet := by
  unfold escByte at h
  simp only [List.mem_cons] at h
  rcases h with rfl | rfl | rfl | h
  · decide
  · decide
  · exact List.mem_append_right _ (hexc_mem _)
  · simp only [List.mem_singleton, List.not_mem_nil] at h
    rcases h with rfl | h
    · exact List.mem_append_right _ (hexc_mem _)
    · cases h

lemma escBytes_chars2 {c : Char} {b : List Nat} (h : c ∈ escBytes b) : c ∈ escCharSet := by
  unfold escBytes at h
  rw [List.mem_flatMap] at h
  obtain ⟨x, -, hx⟩ := h
  exact escByte_chars2 hx

lemma escBytes_count2 (c : Char) (b : List Nat) (h : c ∉ escCharSet) :
    (escBytes b).count c = 0 :=
  List.count_eq_zero.2 (fun hc => h (escBytes_chars2 hc))

lemma escBytes_no_plus (b : List Nat) : '+' ∉ escBytes b :=
  fun hc => by have := escBytes_chars2 hc; simp [escCharSet, hextable] at this

lemma wcCore_count_quote (ind : Int) (post : List Char) :
    ∀ cs, cs ≠ [] → (wcCore ind post cs).count '"' = 2 * cs.length + post.count '"'
  | [], h => absurd rfl h
  | [c], _ => by
    have h1 : (tabs ind).count '"' = 0 := tabs_count_zero _ (by decide)
    have h2 : (escBytes c).count '"' = 0 := escBytes_count2 '"' c (by decide)
    simp [wcCore, List.count_append, List.count_cons, h1, h2]
    omega
  | c :: d :: cs, _ => by
    have h1 : (tabs ind).count '"' = 0 := tabs_count_zero _ (by decide)
    have h2 : (escBytes c).count '"' = 0 := escBytes_count2 '"' c (by decide)
    rw [wcCore_cons ind post c (d :: cs) (by simp)]
    simp only [List.count_append, List.count_cons]
    rw [wcCore_count_quote ind post (d :: cs) (by simp)]
    simp [h1, h2]
    ring

lemma wcCore_count_other (ind : Int) (post : List Char) (c : Char)
    (h1 : c ∉ escCharSet) (h2 : c ∉ (['"', ' ', '+', '\n', '\t'] : List Char)) :
    ∀ cs, cs ≠ [] → (wcCore ind post cs).count c = post.count c
  | [], h => absurd rfl h
  | [d], _ => by
    simp only [List.mem_cons, List.not_mem_nil, or_false] at h2
    push_neg at h2
    obtain ⟨hq, hs, hp, hn, ht⟩ := h2
    have g1 : (tabs ind).count c = 0 := tabs_count_zero _ ht
    have g2 : (escBytes d).count c = 0 := escBytes_count2 c d h1
    simp [wcCore, List.count_append, List.count_cons, g1, g2, hq, hn]
  | d :: e :: cs, _ => by
    have h2' := h2
    simp only [List.mem_cons, List.not_mem_nil, or_false] at h2'
    push_neg at h2'
    obtain ⟨hq, hs, hp, hn, ht⟩ := h2'
    have g1 : (tabs ind).count c = 0 := tabs_count_zero _ ht
    have g2 : (escBytes d).count c = 0 := escBytes_count2 c d h1
    rw [wcCore_cons ind post d (e :: cs) (by simp)]
    simp only [List.count_append, List.count_cons]
    rw [wcCore_count_other ind post c h1 h2 (e :: cs) (by simp)]
    simp [g1, g2]
    exact ⟨Ne.symm hq, ⟨⟨Ne.symm hn, Ne.symm hp⟩, Ne.symm hs⟩, Ne.symm hq⟩

lemma wcCore_ends (ind : Int) (post : List Char) :
    ∀ cs, cs ≠ [] → ∃ u, wcCore ind post cs = u ++ '"' :: post ++ ['\n']
  | [], h => absurd rfl h
  | [c], _ => ⟨tabs ind ++ '"' :: escBytes c, by simp [wcCore, List.append_assoc]⟩
  | c :: d :: cs, _ => by
    obtain ⟨u, hu⟩ := wcCore_ends ind post (d :: cs) (by simp)
    refine ⟨tabs ind ++ '"' :: escBytes c ++ ['"', ' ', '+', '\n'] ++ u, ?_⟩
    rw [wcCore_cons ind post c (d :: cs) (by simp), hu]
    simp [List.append_assoc]

/-- The formatter output always ends in a quote or closing parenthesis
followed by exactly one newline. -/
lemma formatValue_ends (wrap indent : Int) (typ0 : List Char) (b : List Nat) :
    ∃ s c, formatValue wrap indent typ0 b = s ++ [c, '\n'] ∧ (c = '"' ∨ c = ')') := by
  by_cases hb : b = []
  · subst hb
    rw [formatValue_nil]
    by_cases ht : typNorm typ0 = []
    · rw [if_pos ht]
      exact ⟨['"'], '"', rfl, Or.inl rfl⟩
    · rw [if_neg ht]
      exact ⟨typNorm typ0 ++ ['(', '"', '"'], ')', by simp, Or.inr rfl⟩
  · by_cases hw : 0 < wrap ∧ (b.length : Int) > wrap
    · rw [formatValue_wrapped wrap indent typ0 b hw.1 hw.2]
      by_cases ht : typNorm typ0 = []
      · rw [if_pos ht, if_pos ht]
        obtain ⟨u, hu⟩ := wcCore_ends indent [] (chunks wrap.toNat b) (chunks_ne_nil _ _)
        rw [hu]
        exact ⟨['"', '"', ' ', '+', '\n'] ++ u, '"',
          by simp [List.append_assoc], Or.inl rfl⟩
      · rw [if_neg ht, if_neg ht]
        obtain ⟨u, hu⟩ := wcCore_ends indent [')'] (chunks wrap.toNat b) (chunks_ne_nil _ _)
        rw [hu]
        exact ⟨(typNorm typ0 ++ ['(']) ++ ['"', '"', ' ', '+', '\n'] ++ (u ++ ['"']), ')',
          by simp [List.append_assoc], Or.inr rfl⟩
    · rw [formatValue_single wrap indent typ0 b hb hw]
      by_cases ht : typNorm typ0 = []
      · rw [if_pos ht, if_pos ht]
        exact ⟨[] ++ '"' :: escBytes b, '"', by simp [List.append_assoc], Or.inl rfl⟩
      · rw [if_neg ht, if_neg ht]
        exact ⟨(typNorm typ0 ++ ['(']) ++ '"' :: escBytes b ++ ['"'], ')',
          by simp [List.append_assoc], Or.inr rfl⟩

/-! Qualifier-scanner lemmas. -/

lemma accAfter_append (acc : List Char) (s t : List Char) :
    accAfter acc (s ++ t) = accAfter (accAfter acc s) t :=
  List.foldl_append ..

lemma quals_nodot (t : List Char) :
    ∀ (s : List Char), '.' ∉ s → ∀ acc, quals acc (s ++ t) = quals (accAfter acc s) t
  | [], _, acc => rfl
  | c :: s, h, acc => by
    have hc : c ≠ '.' := fun hc => h (hc ▸ List.mem_cons_self _ _)
    have hs : '.' ∉ s := fun hs => h (List.mem_cons_of_mem _ hs)
    simp only [List.cons_append, quals, if_neg hc, List.append_eq]
    by_cases hi : isIdentChar c = true
    · rw [if_pos hi, quals_nodot t s hs (c :: acc)]
      have : accAfter acc (c :: s) = accAfter (c :: acc) s := by
        simp [accAfter, List.foldl_cons, hi]
      rw [this]
    · rw [if_neg hi, quals_nodot t s hs []]
      have : accAfter acc (c :: s) = accAfter [] s := by
        simp only [accAfter, List.foldl_cons]
        rw [if_neg hi]
      rw [this]

lemma quals_empty (s : List Char) (h : '.' ∉ s) (acc : List Char) : quals acc s = [] := by
  have := quals_nodot [] s h acc
  rw [List.append_nil] at this
  rw [this]
  rfl

lemma quals_reset {c : Char} (hc1 : isIdentChar c = false) (hc2 : c ≠ '.')
    (acc t : List Char) : quals acc (c :: t) = quals [] t := by
  simp only [quals, if_neg hc2, hc1]
  rw [if_neg (by simp [hc1])]

lemma quals_dot (acc t : List Char) :
    quals acc ('.' :: t) = (if acc = [] then [] else [acc.reverse]) ++ quals [] t := by
  simp [quals]

lemma formatValue_no_dot (wrap indent : Int) (b : List Nat) :
    '.' ∉ formatValue wrap indent [] b :=
  fun h => absurd (formatValue_chars wrap indent b h) (by decide)

lemma accAfter_formatValue (wrap indent : Int) (b : List Nat) (acc : List Char) :
    accAfter acc (formatValue wrap indent [] b) = [] := by
  obtain ⟨s, c, he, -⟩ := formatValue_ends wrap indent [] b
  rw [he, show s ++ [c, '\n'] = (s ++ [c]) ++ ['\n'] by simp, accAfter_append]
  have hni : isIdentChar '\n' = false := by decide
  simp [accAfter, List.foldl_cons, hni]

lemma getDeclName_no_dot (s : List Char) (e : Bool) : '.' ∉ getDeclName s e :=
  fun h => by
    rcases getDeclName_chars s e _ h with hl | hl
    · exact absurd hl (by decide)
    · exact absurd hl (by decide)

/-- Equal type normalization gives equal formatter output: the bare
"string" alias behaves like the empty type. -/
lemma formatValue_string (wrap indent : Int) (b : List Nat) :
    formatValue wrap indent ['s', 't', 'r', 'i', 'n', 'g'] b
      = formatValue wrap indent [] b := by
  unfold formatValue
  rw [show typNorm ['s', 't', 'r', 'i', 'n', 'g'] = [] from by decide,
    show typNorm ([] : List Char) = [] from by decide]

/-- Scanning an identifier character extends the current run. -/
lemma quals_ident {c : Char} (hc1 : isIdentChar c = true) (hc2 : c ≠ '.')
    (acc t : List Char) : quals acc (c :: t) = quals (c :: acc) t := by
  simp only [quals, if_neg hc2]
  rw [if_pos hc1]

/-- Scanning a concatenation: the emissions of the first part, then the
emissions of the second part started from the carried-over identifier
run. -/
lemma quals_append : ∀ (s : List Char) (acc t : List Char),
    quals acc (s ++ t) = quals acc s ++ quals (accAfter acc s) t
  | [], acc, t => rfl
  | c :: s, acc, t => by
    by_cases hd : c = '.'
    · subst hd
      rw [List.cons_append, quals_dot, quals_dot, quals_append s [] t]
      have ha : accAfter acc ('.' :: s) = accAfter [] s := by
        simp [accAfter, List.foldl_cons, show isIdentChar '.' = false from by decide]
      rw [ha, List.append_assoc]
    · by_cases hi : isIdentChar c = true
      · rw [List.cons_append, quals_ident hi hd, quals_ident hi hd,
          quals_append s (c :: acc) t]
        have ha : accAfter acc (c :: s) = accAfter (c :: acc) s := by
          simp [accAfter, List.foldl_cons, hi]
        rw [ha]
      · have hi' : isIdentChar c = false := by simpa using hi
        rw [List.cons_append, quals_reset hi' hd, quals_reset hi' hd,
          quals_append s [] t]
        have ha : accAfter acc (c :: s) = accAfter [] s := by
          simp only [accAfter, List.foldl_cons]
          rw [if_neg hi]
        rw [ha]

lemma quals_paren (acc : List Char) : quals acc ['('] = [] := by
  rw [quals_reset (by decide) (by decide)]
  rfl

lemma accAfter_paren (acc : List Char) : accAfter acc ['('] = [] := by
  simp only [accAfter, List.foldl_cons, List.foldl_nil]
  rw [if_neg (by decide)]

lemma quals_tab (acc : List Char) : quals acc ['\t'] = [] := by
  rw [quals_reset (by decide) (by decide)]
  rfl

lemma accAfter_tab (acc : List Char) : accAfter acc ['\t'] = [] := by
  simp only [accAfter, List.foldl_cons, List.foldl_nil]
  rw [if_neg (by decide)]

/-- The package qualifiers of the function-shape fragment: the reader
type's package plus whatever the decoder body references. -/
lemma qualifiers_funcFrag (st : Strat) (b : List Nat) (name : List Char)
    (hnd : '.' ∉ name) :
    qualifiers (Decl.funcD.formatDeclare b name [] st)
      = ['i', 'o'] :: quals [] (st.funcDecoder ['a'] ++ "\n\x7d\n".data) := by
  unfold qualifiers
  have h1 : Decl.funcD.formatDeclare b name [] st
      = "func ".data ++ (name ++ (['('] ++ (") io".data ++ (['.']
          ++ ("ReadCloser \x7b\n\tconst a = ".data
            ++ (formatValue 16 2 [] (st.encode b)
              ++ (['\t'] ++ (st.funcDecoder ['a'] ++ "\n\x7d\n".data)))))))) := by
    simp [Decl.formatDeclare, List.append_assoc]
  rw [h1]
  rw [quals_append, show quals [] "func ".data = [] from by decide,
    show accAfter [] "func ".data = [] from by decide]
  rw [quals_append, quals_empty name hnd []]
  rw [quals_append, quals_paren, accAfter_paren]
  rw [quals_append, show quals [] ") io".data = [] from by decide,
    show accAfter [] ") io".data = ['o', 'i'] from by decide]
  rw [quals_append, show quals ['o', 'i'] ['.'] = [['i', 'o']] from by decide,
    show accAfter ['o', 'i'] ['.'] = [] from by decide]
  rw [quals_append, show quals [] "ReadCloser \x7b\n\tconst a = ".data = [] from by decide,
    show accAfter [] "ReadCloser \x7b\n\tconst a = ".data = [] from by decide]
  rw [quals_append, quals_empty _ (formatValue_no_dot 16 2 (st.encode b)) [],
    accAfter_formatValue]
  rw [quals_append, quals_tab, accAfter_tab]
  simp

lemma decoderQuals_no :
    quals [] (Strat.no.funcDecoder ['a'] ++ "\n\x7d\n".data)
      = [['i', 'o', 'u', 't', 'i', 'l'], ['s', 't', 'r', 'i', 'n', 'g', 's']] := by
  decide

lemma decoderQuals_gzip :
    quals [] (Strat.gzip.funcDecoder ['a'] ++ "\n\x7d\n".data)
      = [['g', 'z', 'i', 'p'], ['s', 't', 'r', 'i', 'n', 'g', 's']] := by
  decide

/-- The const and var fragments reference no package (with the default
type): their text contains no dot at all. -/
lemma qualifiers_constFrag (st : Strat) (b : List Nat) (name : List Char)
    (hnd : '.' ∉ name) :
    qualifiers (Decl.constD.formatDeclare b name [] st) = [] := by
  unfold qualifiers
  apply quals_empty
  intro h
  rcases List.mem_append.1 h with h | h
  · rcases List.mem_append.1 h with h | h
    · rcases List.mem_append.1 h with h | h
      · exact absurd h (by decide)
      · exact hnd h
    · exact absurd h (by decide)
  · exact formatValue_no_dot 16 1 (st.encode b) h

/-- Same fact for the var shape, with the default "string" type. -/
lemma qualifiers_varFrag (st : Strat) (b : List Nat) (name : List Char)
    (hnd : '.' ∉ name) :
    qualifiers (Decl.varD.formatDeclare b name ['s', 't', 'r', 'i', 'n', 'g'] st) = [] := by
  unfold qualifiers
  apply quals_empty
  intro h
  rcases List.mem_append.1 h with h | h
  · rcases List.mem_append.1 h with h | h
    · rcases List.mem_append.1 h with h | h
      · exact absurd h (by decide)
      · exact hnd h
    · exact absurd h (by decide)
  · rw [formatValue_string] at h
    exact formatValue_no_dot 16 1 (st.encode b) h

/-! Round trip of the modelled gzip framing. -/

lemma parseBlocks_stored_fuel : ∀ (n : Nat) (b t : List Nat), b.length ≤ n →
    parseBlocks (storedBlocks b ++ t) = some (b, t) := by
  intro n
  induction n with
  | zero =>
    intro b t hb
    have hb0 : b = [] := List.eq_nil_of_length_eq_zero (by omega)
    subst hb0
    rw [storedBlocks, if_pos (by simp)]
    simp only [List.length_nil, List.nil_append, List.cons_append, parseBlocks]
    norm_num
  | succ n ih =>
    intro b t hb
    by_cases hsmall : b.length ≤ 65535
    · rw [storedBlocks, if_pos hsmall]
      simp only [List.cons_append, parseBlocks]
      have hl : b.length % 256 + b.length / 256 * 256 = b.length := by omega
      have hn : (65535 - b.length) % 256 + (65535 - b.length) / 256 * 256
          = 65535 - b.length := by omega
      rw [hl, hn]
      simp [List.take_left, List.drop_left]
    · rw [storedBlocks, if_neg hsmall]
      simp only [List.cons_append, List.append_assoc, parseBlocks]
      have htk : (b.take 65535).length = 65535 := by
        rw [List.length_take]
        omega
      have hc1 : (0 : Nat) + 0 * 256 = 65535 - (255 + 255 * 256) := by norm_num
      have hc2 : 255 + 255 * 256
          ≤ (b.take 65535 ++ (storedBlocks (b.drop 65535) ++ t)).length := by
        simp only [List.length_append, htk]
        omega
      rw [if_pos ⟨trivial, hc2⟩, if_neg (by norm_num)]
      rw [show (255 + 255 * 256 : Nat) = (b.take 65535).length from by rw [htk]]
      rw [List.drop_left, List.take_left]
      rw [ih (b.drop 65535) t (by simp only [List.length_drop]; omega)]
      simp [List.take_append_drop]

lemma parseBlocks_stored (b t : List Nat) :
    parseBlocks (storedBlocks b ++ t) = some (b, t) :=
  parseBlocks_stored_fuel b.length b t le_rfl

/-- Round trip of the modelled gzip codec. -/
lemma gzip_roundtrip (b : List Nat) : gzipDecode (gzipEncode b) = some b := by
  unfold gzipDecode gzipEncode
  rw [List.append_assoc, List.append_assoc]
  rw [show (10 : Nat) = gzipHeader.length from rfl, List.take_left, List.drop_left]
  rw [if_pos rfl]
  rw [parseBlocks_stored b (le32 0 ++ le32 (b.length % 4294967296))]
  simp

/-! Placement of the concatenation operator in formatter output. -/

lemma tabs_no_plus (ind : Int) : '+' ∉ tabs ind :=
  fun h => absurd (tabs_chars h) (by decide)

lemma typNorm_no_plus {typ0 : List Char} (h : '+' ∉ typ0) : '+' ∉ typNorm typ0 := by
  unfold typNorm
  split
  · simp
  · exact h

lemma typNorm_no_quote {typ0 : List Char} (h : '"' ∉ typ0) : '"' ∉ typNorm typ0 := by
  unfold typNorm
  split
  · simp
  · exact h

lemma wcCore_plusSP (ind : Int) (post : List Char) (hpost : '+' ∉ post) :
    ∀ cs, cs ≠ [] → ∀ prev, plusPrevOk ' ' prev (wcCore ind post cs) = true
  | [], h, _ => absurd rfl h
  | [c], _, prev => by
    apply plusPrevOk_no_plus
    intro hp
    rw [show wcCore ind post [c]
        = ((tabs ind ++ '"' :: escBytes c) ++ '"' :: post) ++ ['\n'] from by
      simp [wcCore, List.append_assoc]] at hp
    rcases List.mem_append.1 hp with hp | hp
    · rcases List.mem_append.1 hp with hp | hp
      · rcases List.mem_append.1 hp with hp | hp
        · exact tabs_no_plus ind hp
        · rcases List.mem_cons.1 hp with hp | hp
          · exact absurd hp (by decide)
          · exact escBytes_no_plus c hp
      · rcases List.mem_cons.1 hp with hp | hp
        · exact absurd hp (by decide)
        · exact hpost hp
    · exact absurd hp (by decide)
  | c :: d :: cs, _, prev => by
    rw [wcCore_cons ind post c (d :: cs) (by simp)]
    rw [plusPrevOk_append, plusPrevOk_append]
    have h1 : plusPrevOk ' ' prev (tabs ind ++ '"' :: escBytes c) = true := by
      apply plusPrevOk_no_plus
      intro hp
      rcases List.mem_append.1 hp with hp | hp
      · exact tabs_no_plus ind hp
      · rcases List.mem_cons.1 hp with hp | hp
        · exact absurd hp (by decide)
        · exact escBytes_no_plus c hp
    have h2 : ∀ p, plusPrevOk ' ' p ['"', ' ', '+', '\n'] = true := by
      intro p
      simp [plusPrevOk]
    rw [h1, h2, wcCore_plusSP ind post hpost (d :: cs) (by simp) _]
    rfl

lemma wcCore_plusNL (ind : Int) (post : List Char) (hpost : '+' ∉ post) :
    ∀ cs, cs ≠ [] → ∀ prev, plusPrevOk '\n' prev (wcCore ind post cs).reverse = true
  | [], h, _ => absurd rfl h
  | [c], _, prev => by
    apply plusPrevOk_no_plus
    intro hp
    rw [List.mem_reverse] at hp
    rw [show wcCore ind post [c]
        = ((tabs ind ++ '"' :: escBytes c) ++ '"' :: post) ++ ['\n'] from by
      simp [wcCore, List.append_assoc]] at hp
    rcases List.mem_append.1 hp with hp | hp
    · rcases List.mem_append.1 hp with hp | hp
      · rcases List.mem_append.1 hp with hp | hp
        · exact tabs_no_plus ind hp
        · rcases List.mem_cons.1 hp with hp | hp
          · exact absurd hp (by decide)
          · exact escBytes_no_plus c hp
      · rcases List.mem_cons.1 hp with hp | hp
        · exact absurd hp (by decide)
        · exact hpost hp
    · exact absurd hp (by decide)
  | c :: d :: cs, _, prev => by
    rw [wcCore_cons ind post c (d :: cs) (by simp)]
    rw [List.reverse_append, List.reverse_append]
    rw [plusPrevOk_append, plusPrevOk_append]
    have h1 : ∀ p, plusPrevOk '\n' p (['"', ' ', '+', '\n'] : List Char).reverse = true := by
      intro p
      simp [plusPrevOk]
    have h2 : ∀ p, plusPrevOk '\n' p (tabs ind ++ '"' :: escBytes c).reverse = true := by
      intro p
      apply plusPrevOk_no_plus
      intro hp
      rw [List.mem_reverse] at hp
      rcases List.mem_append.1 hp with hp | hp
      · exact tabs_no_plus ind hp
      · rcases List.mem_cons.1 hp with hp | hp
        · exact absurd hp (by decide)
        · exact escBytes_no_plus c hp
    rw [h1, h2, wcCore_plusNL ind post hpost (d :: cs) (by simp) _]
    rfl

lemma formatValue_single_no_plus (wrap ind : Int) (typ0 : List Char) (b : List Nat)
    (htp : '+' ∉ typ0) (hb : b ≠ []) (hnw : ¬ (0 < wrap ∧ (b.length : Int) > wrap)) :
    '+' ∉ formatValue wrap ind typ0 b := by
  rw [formatValue_single wrap ind typ0 b hb hnw]
  intro hp
  have htn := typNorm_no_plus htp
  rcases List.mem_append.1 hp with hp | hp
  · rcases List.mem_append.1 hp with hp | hp
    · rcases List.mem_append.1 hp with hp | hp
      · split at hp
        · cases hp
        · rcases List.mem_append.1 hp with hp | hp
          · exact htn hp
          · exact absurd hp (by decide)
      · rcases List.mem_cons.1 hp with hp | hp
        · exact absurd hp (by decide)
        · exact escBytes_no_plus b hp
    · rcases List.mem_cons.1 hp with hp | hp
      · exact absurd hp (by decide)
      · split at hp
        · cases hp
        · exact absurd hp (by decide)
  · exact absurd hp (by decide)

lemma formatValue_nil_no_plus (wrap ind : Int) (typ0 : List Char)
    (htp : '+' ∉ typ0) : '+' ∉ formatValue wrap ind typ0 [] := by
  rw [formatValue_nil]
  intro hp
  have htn := typNorm_no_plus htp
  split at hp
  · exact absurd hp (by decide)
  · rcases List.mem_append.1 hp with hp | hp
    · exact htn hp
    · exact absurd hp (by decide)

/-- Every concatenation operator in the output is directly preceded by
a space. -/
lemma formatValue_plusSP (wrap ind : Int) (typ0 : List Char) (b : List Nat)
    (htp : '+' ∉ typ0) : plusSP (formatValue wrap ind typ0 b) = true := by
  unfold plusSP
  by_cases hb : b = []
  · exact plusPrevOk_no_plus _ _ _ (hb ▸ formatValue_nil_no_plus wrap ind typ0 htp)
  · by_cases hw : 0 < wrap ∧ (b.length : Int) > wrap
    · rw [formatValue_wrapped wrap ind typ0 b hw.1 hw.2]
      rw [plusPrevOk_append, plusPrevOk_append]
      have h1 : plusPrevOk ' ' '\n'
          (if typNorm typ0 = [] then [] else typNorm typ0 ++ ['(']) = true := by
        apply plusPrevOk_no_plus
        intro hp
        split at hp
        · cases hp
        · rcases List.mem_append.1 hp with hp | hp
          · exact typNorm_no_plus htp hp
          · exact absurd hp (by decide)
      have h2 : ∀ p, plusPrevOk ' ' p (['"', '"', ' ', '+', '\n'] : List Char) = true := by
        intro p
        simp [plusPrevOk]
      have h3 : '+' ∉ (if typNorm typ0 = [] then [] else [')'] : List Char) := by
        split
        · simp
        · simp
      rw [h1, h2, wcCore_plusSP ind _ h3 (chunks wrap.toNat b) (chunks_ne_nil _ _) _]
      rfl
    · exact plusPrevOk_no_plus _ _ _ (formatValue_single_no_plus wrap ind typ0 b htp hb hw)

/-- Every concatenation operator in the output is directly followed by
a newline. -/
lemma formatValue_plusNL (wrap ind : Int) (typ0 : List Char) (b : List Nat)
    (htp : '+' ∉ typ0) : plusNL (formatValue wrap ind typ0 b) = true := by
  unfold plusNL
  by_cases hb : b = []
  · apply plusPrevOk_no_plus
    rw [List.mem_reverse]
    exact hb ▸ formatValue_nil_no_plus wrap ind typ0 htp
  · by_cases hw : 0 < wrap ∧ (b.length : Int) > wrap
    · rw [formatValue_wrapped wrap ind typ0 b hw.1 hw.2]
      rw [List.reverse_append, List.reverse_append]
      rw [plusPrevOk_append, plusPrevOk_append]
      have h1 : ∀ p, plusPrevOk '\n' p
          (if typNorm typ0 = [] then [] else typNorm typ0 ++ ['(']).reverse = true := by
        intro p
        apply plusPrevOk_no_plus
        intro hp
        rw [List.mem_reverse] at hp
        split at hp
        · cases hp
        · rcases List.mem_append.1 hp with hp | hp
          · exact typNorm_no_plus htp hp
          · exact absurd hp (by decide)
      have h2 : ∀ p, plusPrevOk '\n' p
          (['"', '"', ' ', '+', '\n'] : List Char).reverse = true := by
        intro p
        simp [plusPrevOk]
      have h3 : '+' ∉ (if typNorm typ0 = [] then [] else [')'] : List Char) := by
        split
        · simp
        · simp
      rw [h1, h2, wcCore_plusNL ind _ h3 (chunks wrap.toNat b) (chunks_ne_nil _ _) _]
      rfl
    · apply plusPrevOk_no_plus
      rw [List.mem_reverse]
      exact formatValue_single_no_plus wrap ind typ0 b htp hb hw

/-! Quote and parenthesis counting. -/

lemma typNorm_count (typ0 : List Char) (c : Char) :
    (typNorm typ0).count c = typ0.count c ∨ typNorm typ0 = [] := by
  unfold typNorm
  split
  · exact Or.inr rfl
  · exact Or.inl rfl

/-- The number of quote characters in the output is even. -/
lemma formatValue_count_quote (wrap ind : Int) (typ0 : List Char) (b : List Nat)
    (hq : '"' ∉ typ0) : (formatValue wrap ind typ0 b).count '"' % 2 = 0 := by
  have htn : (typNorm typ0).count '"' = 0 :=
    List.count_eq_zero.2 (typNorm_no_quote hq)
  by_cases hb : b = []
  · subst hb
    rw [formatValue_nil]
    split
    · decide
    · simp [List.count_append, List.count_cons, htn]
  · by_cases hw : 0 < wrap ∧ (b.length : Int) > wrap
    · rw [formatValue_wrapped wrap ind typ0 b hw.1 hw.2]
      have hpost : (if typNorm typ0 = [] then [] else [')'] : List Char).count '"' = 0 := by
        split
        · decide
        · decide
      rw [List.count_append, List.count_append,
        wcCore_count_quote ind _ (chunks wrap.toNat b) (chunks_ne_nil _ _), hpost]
      have hpre : (if typNorm typ0 = [] then []
          else typNorm typ0 ++ ['('] : List Char).count '"' = 0 := by
        split
        · decide
        · simp [List.count_append, List.count_cons, htn]
      rw [hpre]
      simp [Nat.add_mul_mod_self_left]
    · rw [formatValue_single wrap ind typ0 b hb hw]
      have hpre : (if typNorm typ0 = [] then []
          else typNorm typ0 ++ ['('] : List Char).count '"' = 0 := by
        split
        · decide
        · simp [List.count_append, List.count_cons, htn]
      have hpost : (if typNorm typ0 = [] then [] else [')'] : List Char).count '"' = 0 := by
        split
        · decide
        · decide
      simp [List.count_append, List.count_cons, hpre, hpost,
        escBytes_count2 '"' b (by decide)]

/-- Opening and closing parentheses balance in the output. -/
lemma formatValue_count_paren (wrap ind : Int) (typ0 : List Char) (b : List Nat)
    (hp : typ0.count '(' = typ0.count ')') :
    (formatValue wrap ind typ0 b).count '(' = (formatValue wrap ind typ0 b).count ')' := by
  have htn : (typNorm typ0).count '(' = (typNorm typ0).count ')' := by
    rcases typNorm_count typ0 '(' with h1 | h1 <;> rcases typNorm_count typ0 ')' with h2 | h2
    · rw [h1, h2, hp]
    · simp [h2]
    · simp [h1]
    · simp [h1]
  by_cases hb : b = []
  · subst hb
    rw [formatValue_nil]
    split
    · decide
    · simp [List.count_append, List.count_cons, htn]
  · by_cases hw : 0 < wrap ∧ (b.length : Int) > wrap
    · rw [formatValue_wrapped wrap ind typ0 b hw.1 hw.2]
      by_cases ht : typNorm typ0 = []
      · rw [if_pos ht, if_pos ht]
        rw [List.count_append, List.count_append, List.count_append, List.count_append,
          wcCore_count_other ind [] '(' (by decide) (by decide)
            (chunks wrap.toNat b) (chunks_ne_nil _ _),
          wcCore_count_other ind [] ')' (by decide) (by decide)
            (chunks wrap.toNat b) (chunks_ne_nil _ _)]
        decide
      · rw [if_neg ht, if_neg ht]
        rw [List.count_append, List.count_append, List.count_append, List.count_append,
          wcCore_count_other ind [')'] '(' (by decide) (by decide)
            (chunks wrap.toNat b) (chunks_ne_nil _ _),
          wcCore_count_other ind [')'] ')' (by decide) (by decide)
            (chunks wrap.toNat b) (chunks_ne_nil _ _)]
        simp [List.count_append, List.count_cons, htn]
    · rw [formatValue_single wrap ind typ0 b hb hw]
      by_cases ht : typNorm typ0 = []
      · rw [if_pos ht, if_pos ht]
        simp [List.count_append, List.count_cons,
          escBytes_count2 '(' b (by decide), escBytes_count2 ')' b (by decide)]
      · rw [if_neg ht, if_neg ht]
        simp [List.count_append, List.count_cons, htn,
          escBytes_count2 '(' b (by decide), escBytes_count2 ')' b (by decide)]

/-! Import-list helpers. -/

lemma mainImports_sorted (d : Decl) (s : Strat) (extra : String) :
    List.Sorted strLeGo (mainImports d s extra) :=
  List.sorted_insertionSort strLeGo _

lemma mainImports_mem (d : Decl) (s : Strat) (extra : String) (p : String) :
    p ∈ mainImports d s extra
      ↔ p ∈ d.imports ++ (if d = Decl.funcD then s.imports else [])
            ++ (if extra ≠ "" then [extra] else []) :=
  (List.perm_insertionSort strLeGo _).mem_iff

lemma mainImports_nodup_iff (d : Decl) (s : Strat) (extra : String) :
    (mainImports d s extra).Nodup
      ↔ (d.imports ++ (if d = Decl.funcD then s.imports else [])
          ++ (if extra ≠ "" then [extra] else [])).Nodup :=
  (List.perm_insertionSort strLeGo _).nodup_iff

/-! Shape of the chunk decomposition. -/

lemma chunks_facts (w : Nat) (hw : w ≠ 0) : ∀ (n : Nat) (b : List Nat), b.length ≤ n →
    b ≠ [] →
    (chunks w b).flatten = b ∧
    (∀ c ∈ (chunks w b).dropLast, c.length = w) ∧
    (∀ c ∈ chunks w b, 1 ≤ c.length ∧ c.length ≤ w) := by
  intro n
  induction n with
  | zero =>
    intro b hb hne
    cases b with
    | nil => exact absurd rfl hne
    | cons x r => simp at hb
  | succ n ih =>
    intro b hb hne
    by_cases hsmall : b.length ≤ w
    · rw [chunks_small b (Or.inl hsmall)]
      refine ⟨by simp, by simp, ?_⟩
      intro c hc
      simp only [List.mem_singleton] at hc
      subst hc
      have : 1 ≤ c.length := by
        cases c with
        | nil => exact absurd rfl hne
        | cons x r => simp
      exact ⟨this, hsmall⟩
    · rw [chunks_big b hw (by omega)]
      have htk : (b.take w).length = w := by
        rw [List.length_take]
        omega
      have hdr : (b.drop w).length = b.length - w := List.length_drop w b
      have hdrne : b.drop w ≠ [] := by
        intro hcon
        have := congrArg List.length hcon
        rw [hdr] at this
        simp at this
        omega
      obtain ⟨ih1, ih2, ih3⟩ := ih (b.drop w) (by omega) hdrne
      refine ⟨?_, ?_, ?_⟩
      · rw [List.flatten_cons, ih1]
        exact List.take_append_drop w b
      · rw [List.dropLast_cons_of_ne_nil (chunks_ne_nil w (b.drop w))]
        intro c hc
        rcases List.mem_cons.1 hc with rfl | hc
        · exact htk
        · exact ih2 c hc
      · intro c hc
        rcases List.mem_cons.1 hc with rfl | hc
        · rw [htk]
          omega
        · exact ih3 c hc

/-! Last helpers for the claims. -/

lemma str_eq_iff_data (p q : String) : p = q ↔ p.data = q.data :=
  ⟨fun h => h ▸ rfl, String.ext⟩

/-- The chunk lines depend on the closing text only through the final
line: a common core, then the closer, then the newline. -/
lemma wcCore_post (ind : Int) (post : List Char) :
    ∀ cs, cs ≠ [] → ∃ u, wcCore ind [] cs = u ++ ['\n']
      ∧ wcCore ind post cs = u ++ post ++ ['\n']
  | [], h => absurd rfl h
  | [c], _ => by
    refine ⟨tabs ind ++ '"' :: escBytes c ++ ['"'], ?_, ?_⟩
    · simp [wcCore, List.append_assoc]
    · simp [wcCore, List.append_assoc]
  | c :: d :: cs, _ => by
    obtain ⟨u, hu1, hu2⟩ := wcCore_post ind post (d :: cs) (by simp)
    refine ⟨tabs ind ++ '"' :: escBytes c ++ ['"', ' ', '+', '\n'] ++ u, ?_, ?_⟩
    · rw [wcCore_cons ind [] c (d :: cs) (by simp), hu1]
      simp [List.append_assoc]
    · rw [wcCore_cons ind post c (d :: cs) (by simp), hu2]
      simp [List.append_assoc]

/-- Wrapped output with no type annotation. -/
lemma formatValue_wrapped_notyp (wrap indent : Int) (b : List Nat)
    (hw : 0 < wrap) (hlen : (b.length : Int) > wrap) :
    formatValue wrap indent [] b
      = ['"', '"', ' ', '+', '\n'] ++ wcCore indent [] (chunks wrap.toNat b) := by
  rw [formatValue_wrapped wrap indent [] b hw hlen]
  rfl

/-- Unwrapped output with no type annotation. -/
lemma formatValue_single_notyp (wrap indent : Int) (b : List Nat)
    (hb : b ≠ []) (hnw : ¬ (0 < wrap ∧ (b.length : Int) > wrap)) :
    formatValue wrap indent [] b = '"' :: escBytes b ++ ['"', '\n'] := by
  rw [formatValue_single wrap indent [] b hb hnw]
  have h : typNorm ([] : List Char) = [] := rfl
  simp [h]

/-! The claims. -/

/-- C2: for every byte sequence (including the empty one and arbitrary
byte values), applying each strategy's own decode semantics to the
strategy-encoded bytes reconstructs exactly the input, for both the
Identity and the Gzip strategy. -/
theorem c2_strategy_roundtrip (b : List Nat) :
    noDecode (Strat.no.encode b) = some b
      ∧ gzipDecode (Strat.gzip.encode b) = some b :=
  ⟨rfl, gzip_roundtrip b⟩

/-- C3 counterexample: the claim says a run of consecutive non-letters
collapses to a single underscore, but the sanitizer emits one
underscore per non-letter character: two dashes give two underscores. -/
theorem c3_counterexample :
    getDeclName ("a--b".data) false = "a__b".data
      ∧ getDeclName ("a--b".data) false ≠ "a_b".data := by
  decide

/-- C3 amended: each individual non-letter character occurring after
the first kept letter maps to exactly one underscore (so a run of k
non-letters yields k underscores); non-letter characters before the
first letter are dropped entirely, and the result never begins with an
underscore. -/
theorem c3_sanitizer_amended (s t : List Char) (e : Bool) :
    (getDeclName s e ≠ [] →
      getDeclName (s ++ t) e
        = getDeclName s e ++ t.map (fun c => if isLetterGo c then c else '_'))
    ∧ ((∀ c ∈ s, isLetterGo c = false) → getDeclName (s ++ t) e = getDeclName t e)
    ∧ (getDeclName s e).head? ≠ some '_' := by
  refine ⟨fun h => getDeclName_append s t e h, fun h => ?_, getDeclName_head s e⟩
  unfold getDeclName
  rw [List.foldl_append, show s.foldl (declNameStep e) [] = []
    from getDeclName_no_letter s e h]

/-- C3 witness: the amended behaviour at a concrete input. -/
theorem c3_witness :
    getDeclName ("ab".data ++ "--c".data) false
      = getDeclName ("ab".data) false
        ++ "--c".data.map (fun c => if isLetterGo c then c else '_') :=
  (c3_sanitizer_amended ("ab".data) ("--c".data) false).1 (by decide)

/-- C9: an input name with no letters sanitizes to the empty
identifier, and the generator still renders the declaration with the
empty identifier and no fallback (for the const shape and empty payload
the fragment is literally "const  = ..."). -/
theorem c9_empty_identifier (name : List Char) (e : Bool)
    (h : ∀ c ∈ name, isLetterGo c = false) :
    getDeclName name e = []
      ∧ Decl.constD.formatDeclare [] (getDeclName name e) [] Strat.no
          = "const  = \"\"\n".data := by
  have h0 := getDeclName_no_letter name e h
  refine ⟨h0, ?_⟩
  rw [h0]
  decide

/-- C9 witness: the digit-only name "123" with the export flag off. -/
theorem c9_witness :
    (∀ c ∈ ("123".data : List Char), isLetterGo c = false)
      ∧ (getDeclName ("123".data) false = []
        ∧ Decl.constD.formatDeclare [] (getDeclName ("123".data) false) [] Strat.no
            = "const  = \"\"\n".data) :=
  ⟨by decide, c9_empty_identifier ("123".data) false (by decide)⟩

/-- C10: for every payload, wrap width and type name, the formatter
output ends with exactly one newline character. -/
theorem c10_trailing_newline (wrap indent : Int) (typ0 : List Char) (b : List Nat) :
    ∃ s c, formatValue wrap indent typ0 b = s ++ [c, '\n'] ∧ c ≠ '\n' := by
  obtain ⟨s, c, he, hc⟩ := formatValue_ends wrap indent typ0 b
  refine ⟨s, c, he, ?_⟩
  rcases hc with rfl | rfl
  · decide
  · decide

/-- C4 counterexample: for a 33-byte payload at wrap width 16 the
formatter emits a leading empty literal and puts the FIRST 16-byte
chunk on its own indented line, contrary to the claim that the first
chunk is not on its own indented line. -/
theorem c4_counterexample :
    formatValue 16 1 [] (List.replicate 33 0)
        = ("\"\" +\n\t\""
            ++ "\\x00\\x00\\x00\\x00\\x00\\x00\\x00\\x00\\x00\\x00\\x00\\x00\\x00\\x00\\x00\\x00"
            ++ "\" +\n\t\""
            ++ "\\x00\\x00\\x00\\x00\\x00\\x00\\x00\\x00\\x00\\x00\\x00\\x00\\x00\\x00\\x00\\x00"
            ++ "\" +\n\t\"" ++ "\\x00" ++ "\"\n").data
      ∧ formatValue 16 1 [] (List.replicate 33 0)
          ≠ '"' :: escBytes (List.replicate 16 0) ++ ['"', ' ', '+', '\n']
            ++ tabs 1 ++ '"' :: escBytes (List.replicate 16 0) ++ ['"', ' ', '+', '\n']
            ++ tabs 1 ++ '"' :: escBytes (List.replicate 1 0) ++ ['"', '\n'] := by
  decide

set_option maxRecDepth 4000 in
/-- C4 amended: when the wrap width is positive and the payload longer
than it, the formatter emits an empty literal joined by the
concatenation operator and then every chunk — including the first — on
its own line indented by the indent level; chunks carry wrapWidth bytes
each except the final one (between 1 and wrapWidth), they concatenate
back to the payload, and a 33-byte payload at wrap width 16 gives
chunks of 16, 16 and 1 bytes.  When the wrap width is nonpositive or
the payload not longer, the whole escape sequence is one quoted
literal. -/
theorem c4_wrapping_amended (wrap indent : Int) (b : List Nat) (hb : b ≠ []) :
    (¬ (0 < wrap ∧ (b.length : Int) > wrap) →
      formatValue wrap indent [] b = '"' :: escBytes b ++ ['"', '\n'])
    ∧ (0 < wrap → (b.length : Int) > wrap →
      formatValue wrap indent [] b
          = ['"', '"', ' ', '+', '\n'] ++ wcCore indent [] (chunks wrap.toNat b)
        ∧ (∀ c ∈ (chunks wrap.toNat b).dropLast, c.length = wrap.toNat)
        ∧ (∀ c ∈ chunks wrap.toNat b, 1 ≤ c.length ∧ c.length ≤ wrap.toNat)
        ∧ (chunks wrap.toNat b).flatten = b)
    ∧ (chunks 16 (List.replicate 33 0)).map List.length = [16, 16, 1] := by
  have ht : typNorm [] = ([] : List Char) := by decide
  have hch : (chunks 16 (List.replicate 33 0)).map List.length = [16, 16, 1] := by
    rw [chunks_big (List.replicate 33 0) (by norm_num) (by simp)]
    rw [List.take_replicate, List.drop_replicate]
    norm_num
    rw [chunks_big (List.replicate 17 0) (by norm_num) (by simp)]
    rw [List.take_replicate, List.drop_replicate]
    norm_num
    rw [chunks_small ([0] : List Nat) (Or.inl (by simp))]
    simp
  refine ⟨?_, ?_, hch⟩
  · intro hnw
    rw [formatValue_single wrap indent [] b hb hnw, ht]
    simp
  · intro hw hlen
    have hfacts := chunks_facts wrap.toNat (by omega) b.length b le_rfl hb
    refine ⟨?_, hfacts.2.1, hfacts.2.2, hfacts.1⟩
    rw [formatValue_wrapped wrap indent [] b hw hlen, ht]
    simp

/-- C4 witness: the wrapped decomposition at the 33-byte payload. -/
theorem c4_witness :
    formatValue 16 1 [] (List.replicate 33 0)
      = ['"', '"', ' ', '+', '\n']
        ++ wcCore 1 [] (chunks (16 : Int).toNat (List.replicate 33 0)) :=
  ((c4_wrapping_amended 16 1 (List.replicate 33 0) (by decide)).2.1
    (by decide) (by decide)).1

/-- C5 counterexample: for the type name "(" the output is not
balanced — two opening parentheses against one closing one — refuting
the claim for arbitrary type names. -/
theorem c5_counterexample :
    (formatValue 0 0 ['('] [7]).count '(' = 2
      ∧ (formatValue 0 0 ['('] [7]).count ')' = 1 := by
  decide

/-- C5 amended: for every payload and wrap width, and every type name
whose own text has balanced parentheses and contains no quote and no
plus character, the output has an even number of quotes and balanced
parentheses, every concatenation operator sits between a space and a
newline (the chunk junction), the output never ends in an operator
before its final newline, and the empty payload with no type renders
as the empty literal with no operator. -/
theorem c5_balanced_amended (wrap indent : Int) (typ0 : List Char) (b : List Nat)
    (h1 : typ0.count '(' = typ0.count ')') (h2 : '"' ∉ typ0) (h3 : '+' ∉ typ0) :
    (formatValue wrap indent typ0 b).count '"' % 2 = 0
    ∧ (formatValue wrap indent typ0 b).count '('
        = (formatValue wrap indent typ0 b).count ')'
    ∧ plusSP (formatValue wrap indent typ0 b) = true
    ∧ plusNL (formatValue wrap indent typ0 b) = true
    ∧ (∃ s c, formatValue wrap indent typ0 b = s ++ [c, '\n'] ∧ c ≠ '+')
    ∧ formatValue wrap indent [] [] = ['"', '"', '\n']
    ∧ '+' ∉ formatValue wrap indent [] [] := by
  refine ⟨formatValue_count_quote wrap indent typ0 b h2,
    formatValue_count_paren wrap indent typ0 b h1,
    formatValue_plusSP wrap indent typ0 b h3,
    formatValue_plusNL wrap indent typ0 b h3, ?_, ?_, ?_⟩
  · obtain ⟨s, c, he, hc⟩ := formatValue_ends wrap indent typ0 b
    refine ⟨s, c, he, ?_⟩
    rcases hc with rfl | rfl
    · decide
    · decide
  · rw [formatValue_nil, if_pos (show typNorm [] = [] from by decide)]
  · rw [formatValue_nil, if_pos (show typNorm [] = [] from by decide)]
    decide

/-- C5 witness: balance at a concrete type name and payload. -/
theorem c5_witness :
    (formatValue 0 0 ("T".data) [7]).count '"' % 2 = 0
      ∧ (formatValue 0 0 ("T".data) [7]).count '('
          = (formatValue 0 0 ("T".data) [7]).count ')' :=
  ⟨(c5_balanced_amended 0 0 ("T".data) [7] (by decide) (by decide) (by decide)).1,
   (c5_balanced_amended 0 0 ("T".data) [7] (by decide) (by decide) (by decide)).2.1⟩

/-- C8: the configured type is forced to empty for the const and
func/default declaration flags and honored only for the var flag; and
for a non-empty type name other than the bare "string" alias the
formatter wraps the whole literal expression — empty or not — in a
conversion call around a type-independent core. -/
theorem c8_forced_type (wrap indent : Int) (typ0 : List Char) (b : List Nat)
    (df tf : String) (h1 : typ0 ≠ []) (h2 : typ0 ≠ ['s', 't', 'r', 'i', 'n', 'g']) :
    selectType df tf = (if df = "var" then tf else "")
    ∧ ∃ core, formatValue wrap indent [] b = core ++ ['\n']
        ∧ formatValue wrap indent typ0 b = typ0 ++ '(' :: core ++ [')', '\n'] := by
  have htn : typNorm typ0 = typ0 := by
    unfold typNorm
    rw [if_neg h2]
  constructor
  · unfold selectType
    split
    · simp
    · simp
    · rename_i hx1 hx2
      rw [if_neg (by simp_all)]
  · by_cases hb : b = []
    · subst hb
      refine ⟨['"', '"'], ?_, ?_⟩
      · rfl
      · rw [formatValue_nil, htn, if_neg h1]
        simp
    · by_cases hw : 0 < wrap ∧ (b.length : Int) > wrap
      · obtain ⟨u, hu1, hu2⟩ :=
          wcCore_post indent [')'] (chunks wrap.toNat b) (chunks_ne_nil _ _)
        refine ⟨['"', '"', ' ', '+', '\n'] ++ u, ?_, ?_⟩
        · rw [formatValue_wrapped_notyp wrap indent b hw.1 hw.2, hu1]
          simp [List.append_assoc]
        · rw [formatValue_wrapped wrap indent typ0 b hw.1 hw.2, htn,
            if_neg h1, if_neg h1, hu2]
          simp [List.append_assoc]
      · refine ⟨'"' :: escBytes b ++ ['"'], ?_, ?_⟩
        · rw [formatValue_single_notyp wrap indent b hb hw]
          simp
        · rw [formatValue_single wrap indent typ0 b hb hw, htn, if_neg h1, if_neg h1]
          simp [List.append_assoc]

/-- C8 witness: the const flag forces the empty type. -/
theorem c8_witness :
    selectType ("const") ("int") = (if ("const" : String) = "var" then "int" else "") :=
  (c8_forced_type 16 1 ("T".data) [104] ("const") ("int")
    (by decide) (by decide)).1

/-- C6: with the function shape (and no extra import) the collected
list of imports is exactly the union of the shape's own import and the
selected strategy's imports; with the const or var shape the
strategy's imports — including the gzip decode import — never enter
the list, whatever the strategy encodes. -/
theorem c6_import_collection (st : Strat) (extra : String) (p : String) :
    (p ∈ mainImports Decl.funcD st ""
        ↔ p ∈ Decl.funcD.imports ∨ p ∈ st.imports)
    ∧ (p ∈ mainImports Decl.constD st extra ↔ extra ≠ "" ∧ p = extra)
    ∧ (p ∈ mainImports Decl.varD st extra ↔ extra ≠ "" ∧ p = extra) := by
  refine ⟨?_, ?_, ?_⟩
  · rw [mainImports_mem]
    rw [if_pos rfl, if_neg (by simp)]
    simp [List.mem_append]
  · rw [mainImports_mem]
    rw [if_neg (by decide)]
    by_cases he : extra = ""
    · subst he
      simp [Decl.imports]
    · rw [if_pos he]
      simp [Decl.imports, he]
  · rw [mainImports_mem]
    rw [if_neg (by decide)]
    by_cases he : extra = ""
    · subst he
      simp [Decl.imports]
    · rw [if_pos he]
      simp [Decl.imports, he]

/-- C7 counterexample: when the extra import equals an import already
required (here "io" with the default func shape), the name appears
twice in the sorted import list, refuting distinctness. -/
theorem c7_counterexample :
    mainImports Decl.funcD Strat.no ("io") = ["io", "io", "ioutil", "strings"]
      ∧ ¬ (mainImports Decl.funcD Strat.no ("io")).Nodup := by
  constructor
  · decide
  · decide

/-- C7 amended: the import list is always sorted lexicographically, and
its names are distinct whenever the configured extra import does not
duplicate an import already required by the shape or the strategy. -/
theorem c7_sorted_amended (d : Decl) (s : Strat) (extra : String)
    (h : extra ∉ d.imports ++ (if d = Decl.funcD then s.imports else [])) :
    List.Sorted strLeGo (mainImports d s extra)
      ∧ (mainImports d s extra).Nodup := by
  refine ⟨mainImports_sorted d s extra, ?_⟩
  rw [mainImports_nodup_iff]
  by_cases he : extra = ""
  · subst he
    rw [show (if ("" : String) ≠ "" then [("" : String)] else ([] : List String)) = []
      from rfl, List.append_nil]
    cases d <;> cases s <;> decide
  · rw [if_pos he]
    apply List.Nodup.append
    · cases d <;> cases s <;> decide
    · exact List.nodup_singleton _
    · intro x hx hx2
      simp only [List.mem_singleton] at hx2
      subst hx2
      exact h hx

/-- C7 witness: sortedness and distinctness for the func shape with
gzip compression and an unrelated extra import. -/
theorem c7_witness :
    List.Sorted strLeGo (mainImports Decl.funcD Strat.gzip ("fmt"))
      ∧ (mainImports Decl.funcD Strat.gzip ("fmt")).Nodup :=
  c7_sorted_amended Decl.funcD Strat.gzip ("fmt") (by decide)

/-- C1 counterexample: with an extra import configured (flag -import
"io", const shape) the import block lists a package the rendered
fragment never references, refuting exactness for every
configuration. -/
theorem c1_counterexample :
    ("io" : String) ∈ mainImports Decl.constD Strat.no ("io")
      ∧ qualifiers (Decl.constD.formatDeclare []
          (getDeclName ("stdin".data) false) [] Strat.no) = [] := by
  constructor
  · decide
  · decide

lemma mem_str_mem_data (p : String) (l : List String) :
    p ∈ l ↔ p.data ∈ l.map String.data := by
  constructor
  · intro h
    exact List.mem_map_of_mem _ h
  · intro h
    obtain ⟨q, hq, he⟩ := List.mem_map.1 h
    rwa [String.ext he] at hq

/-- C1 amended: with no extra import configured and the default type
("" for const and func, "string" for var), the import list equals, as
a set, the packages the rendered declaration references, for every
strategy, payload and sanitized name. -/
theorem c1_imports_amended (st : Strat) (b : List Nat) (raw : List Char)
    (e : Bool) (p : String) :
    (p ∈ mainImports Decl.funcD st ""
        ↔ p.data ∈ qualifiers (Decl.funcD.formatDeclare b (getDeclName raw e) [] st))
    ∧ (p ∈ mainImports Decl.constD st ""
        ↔ p.data ∈ qualifiers (Decl.constD.formatDeclare b (getDeclName raw e) [] st))
    ∧ (p ∈ mainImports Decl.varD st ""
        ↔ p.data ∈ qualifiers (Decl.varD.formatDeclare b (getDeclName raw e)
            ['s', 't', 'r', 'i', 'n', 'g'] st)) := by
  have hnd := getDeclName_no_dot raw e
  refine ⟨?_, ?_, ?_⟩
  · rw [qualifiers_funcFrag st b _ hnd]
    cases st
    · rw [decoderQuals_no,
        show mainImports Decl.funcD Strat.no ""
          = ["io", "ioutil", "strings"] from by decide,
        show (['i', 'o'] :: [['i', 'o', 'u', 't', 'i', 'l'],
            ['s', 't', 'r', 'i', 'n', 'g', 's']])
          = (["io", "ioutil", "strings"] : List String).map String.data from by decide]
      exact mem_str_mem_data p _
    · rw [decoderQuals_gzip,
        show mainImports Decl.funcD Strat.gzip ""
          = ["gzip", "io", "strings"] from by decide,
        show (['i', 'o'] :: [['g', 'z', 'i', 'p'],
            ['s', 't', 'r', 'i', 'n', 'g', 's']])
          = (["io", "gzip", "strings"] : List String).map String.data from by decide]
      constructor
      · intro hp
        rw [mem_str_mem_data p (["gzip", "io", "strings"] : List String)] at hp
        simp only [List.map_cons, List.map_nil, List.mem_cons, List.not_mem_nil,
          or_false] at hp ⊢
        tauto
      · intro hp
        rw [mem_str_mem_data p (["gzip", "io", "strings"] : List String)]
        simp only [List.map_cons, List.map_nil, List.mem_cons, List.not_mem_nil,
          or_false] at hp ⊢
        tauto
  · have hc : mainImports Decl.constD st "" = [] := by
      unfold mainImports
      rw [if_neg (by decide), if_neg (by decide)]
      rfl
    rw [hc, qualifiers_constFrag st b _ hnd]
    simp
  · have hc : mainImports Decl.varD st "" = [] := by
      unfold mainImports
      rw [if_neg (by decide), if_neg (by decide)]
      rfl
    rw [hc, qualifiers_varFrag st b _ hnd]
    simp
